import Mathlib

/-!
Shallow embedding of `scavenge.py`, a reference-cycle explorer for
uncollectable garbage objects, together with proofs about the claims of
its specification.

Objects are represented by their identity keys (`ID(obj)` in the source),
modelled as natural numbers.  Python dictionaries are modelled as
insertion-ordered association lists, Python sets as `Finset Nat`.
Reading guide, definition by definition, against the source:

* `separate` (source `separate`, lines 41-63): the disjoint-set
  separation of an adjacency mapping into weakly-connected components,
  including the final materialization `{key: refs[key] for key in s}`
  which fails (modelled by `Option`) when a member is not a key.
* `buildRefs` (source line 80): the reference-graph builder
  `{item: garbage.intersection(ID(ref) for ref in gc.get_referents(item.obj))
  for item in garbage}`.
* `fmtref` (source lines 13-38): the reference describer; phrases are
  modelled by the inductive `Phrase`, and the only modelled failure
  source is an attribute whose `getattr` raises (an `attrs` entry whose
  value is `none`), which aborts probing with no result, exactly as the
  source's bare `except: pass` does.
* `collapseStep`/`collapsePass` (source lines 82-89): the
  `__dict__`-container collapse.
* `removeSet`/`pruneRound`/`pruneFuel`/`prune` (source lines 90-95): the
  tail-pruning loop.  The loop is embedded with explicit fuel
  `c.length + 1`; each iteration that recurses removes at least one
  entry, so the fuel is never exhausted (`pruneFuel_removeSet` below
  proves the fixed point is always reached within the fuel budget).
* `varnamesFor`/`assignNames` (source lines 106-113): display-name
  assignment.  The `while len(varnames) < len(cycle)` loop is embedded
  with fuel `n`; a single squaring step already yields 676 names, so for
  every component size covered by a theorem below the fuel is ample.
* `splitAtFile`/`minShortest`/`trimCommon`/`reconcile`/`tracebackReport`
  (source lines 137-164): the traceback command.  Frames are
  (path, line) pairs with paths modelled as numbers; `__file__` is the
  `file` parameter.
* `initCycles` (source lines 79-98): the per-component pipeline
  (size before simplification, collapse, prune, stable sort by
  `(size, len(cycle))`), with Python's stable `list.sort` modelled by
  the stable `List.insertionSort`.

Definitions whose doc comment starts with "Modelled from the claim" or
"Modelled from the spec" follow the specification's words rather than
the source; they exist only to be compared against the source-derived
definitions.
-/

namespace Scavenge

/-- Identity key of a Python object (`ID(obj)`, an `int`). -/
abbrev Node := Nat

/-- A Python dict from nodes to sets of nodes, in insertion order. -/
abbrev Adj := List (Node × Finset Node)

/-- The key set of an adjacency mapping. -/
def keysF (refs : Adj) : Finset Node := (refs.map Prod.fst).toFinset

/-- Every node occurring in `refs`, as a key or inside a referent set. -/
def touched (refs : Adj) : Finset Node :=
  refs.foldr (fun p acc => insert p.1 p.2 ∪ acc) ∅

/-- A deterministic enumeration of a Python set (Python iterates sets in
an unspecified order; the embedding fixes increasing order). -/
def finsort (s : Finset Node) : List Node :=
  Quot.liftOn s.val (fun l => l.insertionSort (· ≤ ·))
    (fun _ _ h => List.eq_of_perm_of_sorted
      (((List.perm_insertionSort _ _).trans h).trans (List.perm_insertionSort _ _).symm)
      (List.sorted_insertionSort _ _) (List.sorted_insertionSort _ _))

/-- `a` and `b` are joined by one edge of `refs`, in either direction. -/
def linkIn (refs : Adj) (a b : Node) : Prop :=
  ∃ p ∈ refs, (a = p.1 ∧ b ∈ p.2) ∨ (b = p.1 ∧ a ∈ p.2)

/-- `a` and `b` are connected by an undirected path of edges of `refs`. -/
def conn (refs : Adj) : Node → Node → Prop :=
  Relation.ReflTransGen (linkIn refs)

/-- Evaluate `f` on every element; fail on the first failure.  This is the
semantics of a Python comprehension whose body may raise (`KeyError` in
the materialization step of `separate`). -/
def mapOpt {α β : Type} (f : α → Option β) : List α → Option (List β)
  | [] => some []
  | a :: l =>
    match f a, mapOpt f l with
    | some b, some bs => some (b :: bs)
    | _, _ => none

/-- State of the disjoint-set loop of `separate`: `rootmap` is the dict
`rootmap`, `union` the dict `union` (roots are allocated from the counter
`fresh`, standing for the fresh `object()` sentinels). -/
structure SepSt where
  rootmap : Node → Option Nat
  union : List (Nat × Finset Node)
  fresh : Nat

/-- The empty dicts `rootmap = {}`, `union = {}`. -/
def initSt : SepSt := ⟨fun _ => none, [], 0⟩

/-- One iteration of the loop `for key, vals in refs.items()` of
`separate`: `items = {key} | vals`, collect the existing roots of
`items`, then either start a fresh component or merge all touched
components into the first root found, finally remapping every item. -/
def sepStep (st : SepSt) (kv : Node × Finset Node) : SepSt :=
  let items0 : Finset Node := insert kv.1 kv.2
  match ((finsort items0).filterMap st.rootmap).dedup with
  | [] =>
      { rootmap := fun n => if n ∈ items0 then some st.fresh else st.rootmap n
        union := st.union ++ [(st.fresh, items0)]
        fresh := st.fresh + 1 }
  | root :: rmroots =>
      let items : Finset Node :=
        rmroots.foldl (fun acc r => acc ∪ ((st.union.lookup r).getD ∅)) items0
      { rootmap := fun n => if n ∈ items then some root else st.rootmap n
        union := (st.union.filter (fun p => decide (p.1 ∉ rmroots))).map
          (fun p => if p.1 = root then (p.1, p.2 ∪ items) else p)
        fresh := st.fresh }

/-- The whole disjoint-set loop of `separate`. -/
def runSep (refs : Adj) : SepSt := refs.foldl sepStep initSt

/-- `separate` (source lines 41-63): run the disjoint-set loop, then
materialize `[{key: refs[key] for key in s} for s in union.values()]`.
A member that is not a key of `refs` makes the comprehension raise
`KeyError`, modelled by `none`. -/
def separate (refs : Adj) : Option (List Adj) :=
  mapOpt
    (fun p => mapOpt (fun k => (refs.lookup k).map (fun v => (k, v)))
      (finsort p.2))
    (runSep refs).union

/-- The member sets of the components found by the disjoint-set loop. -/
def compSets (refs : Adj) : List (Finset Node) :=
  (runSep refs).union.map Prod.snd

/-- The reference-graph builder (source line 80):
`{item: garbage.intersection(ID(ref) for ref in gc.get_referents(item.obj))
for item in garbage}` — each referent set is intersected with the
suspect set. -/
def buildRefs (garbage : Finset Node) (rawRefs : Node → List Node) : Adj :=
  (finsort garbage).map (fun i => (i, garbage.filter (fun g => g ∈ rawRefs i)))

/-- The relationship phrases `fmtref` can produce, one constructor per
format string of the source (`arrow` is the caller's fallback
`'\x7bobj:\x7d -> \x7bref:\x7d'`). -/
inductive Phrase where
  | mapVal (key : Nat)
  | mapKey
  | seqIdx (i : Nat)
  | setMem
  | attrIs (name : Nat)
  | arrow
deriving DecidableEq

/-- A Python object as seen by `fmtref`'s structural probes: its
mapping/sequence/set faces (when `isinstance` succeeds) and its `dir`
attribute list.  Attribute names are modelled as numbers; an attribute
value `none` models a `getattr` call that raises. -/
structure PyObj where
  mapping : Option (List (Nat × Nat))
  sequence : Option (List Nat)
  setElems : Option (List Nat)
  attrs : List (Nat × Option Nat)

/-- The mapping probe: `for key, value in obj.items()`, checking
`value is ref` and then `key is ref` on each entry. -/
def scanMap : List (Nat × Nat) → Nat → Option Phrase
  | [], _ => none
  | (k, v) :: rest, ref =>
    if v = ref then some (.mapVal k)
    else if k = ref then some .mapKey
    else scanMap rest ref

/-- The sequence probe: `for i, value in enumerate(obj)`. -/
def scanSeq : List Nat → Nat → Nat → Option Phrase
  | [], _, _ => none
  | v :: rest, i, ref =>
    if v = ref then some (.seqIdx i) else scanSeq rest (i + 1) ref

/-- The attribute probe: `for attr in dir(obj): if getattr(obj, attr) is
ref`.  An entry whose value is `none` models a raising `getattr`; the
exception aborts probing and `fmtref` returns no phrase (`except: pass`
followed by falling off the end of the function). -/
def scanAttrs : List (Nat × Option Nat) → Nat → Option Phrase
  | [], _ => none
  | (_, none) :: _, _ => none
  | (a, some v) :: rest, ref =>
    if v = ref then some (.attrIs a) else scanAttrs rest ref

/-- `fmtref` (source lines 13-38): try the mapping, sequence, set and
attribute probes in that order; `none` means the source returned `None`
(no probe matched, or an exception was swallowed). -/
def fmtref (obj : PyObj) (ref : Nat) : Option Phrase :=
  match obj.mapping.bind (fun items => scanMap items ref) with
  | some p => some p
  | none =>
    match obj.sequence.bind (fun l => scanSeq l 0 ref) with
    | some p => some p
    | none =>
      match obj.setElems.bind
          (fun l => if ref ∈ l then some Phrase.setMem else none) with
      | some p => some p
      | none => scanAttrs obj.attrs ref

/-- The caller's use of `fmtref` (source line 111):
`fmtref(item.obj, ref.obj) or '\x7bobj:\x7d -> \x7bref:\x7d'`. -/
def describeRef (obj : PyObj) (ref : Nat) : Phrase :=
  (fmtref obj ref).getD .arrow

/-- Modelled from the claim: the describer tries mapping-value over all
entries as one probe, then mapping-key over all entries as the next
probe, then the remaining probes as `fmtref` does. -/
def claimedFmtref (obj : PyObj) (ref : Nat) : Option Phrase :=
  match obj.mapping.bind (fun items =>
      (items.find? (fun kv => kv.2 == ref)).map (fun kv => Phrase.mapVal kv.1)) with
  | some p => some p
  | none =>
    match obj.mapping.bind (fun items =>
        if items.any (fun kv => kv.1 == ref) then some Phrase.mapKey else none) with
    | some p => some p
    | none =>
      match obj.sequence.bind (fun l => scanSeq l 0 ref) with
      | some p => some p
      | none =>
        match obj.setElems.bind
            (fun l => if ref ∈ l then some Phrase.setMem else none) with
        | some p => some p
        | none => scanAttrs obj.attrs ref

/-- One member's turn in the container-collapse loop (source lines
83-89): if the member `A` has a `__dict__` node `S` (`dictOf A = some S`),
`S` is currently among `A`'s edges, and no other member currently has an
edge to `S`, then set `cycle[A] = cycle[S] | cycle[A] - \x7bS\x7d` and then
`cycle[S] = set()`; otherwise leave the state unchanged. -/
def collapseStep (members : List Node) (dictOf : Node → Option Node)
    (m : Node → Finset Node) (A : Node) : Node → Finset Node :=
  match dictOf A with
  | none => m
  | some S =>
    if S ∈ m A ∧ ∀ B ∈ members, B ≠ A → S ∉ m B then
      fun n => if n = S then ∅ else if n = A then m S ∪ (m A \ {S}) else m n
    else m

/-- The whole container-collapse pass: iterate `collapseStep` over the
members in dict order, reading and writing the current edge sets. -/
def collapsePass (dictOf : Node → Option Node) (c : Adj) : Adj :=
  let ks := c.map Prod.fst
  let f := ks.foldl (fun m A => collapseStep ks dictOf m A)
    (fun n => (c.lookup n).getD ∅)
  ks.map (fun k => (k, f k))

/-- `remove = \x7bitem for item, refs in cycle.items() if not refs\x7d`
(source line 92). -/
def removeSet (c : Adj) : Finset Node :=
  (c.filterMap (fun p => if p.2 = ∅ then some p.1 else none)).toFinset

/-- One pruning round (source line 95):
`cycle = \x7bitem: refs-remove for item, refs in cycle.items()
if item not in remove\x7d`. -/
def pruneRound (c : Adj) (remove : Finset Node) : Adj :=
  (c.filter (fun p => decide (p.1 ∉ remove))).map (fun p => (p.1, p.2 \ remove))

/-- The pruning loop with explicit fuel: repeat `pruneRound` until
`removeSet` is empty.  Each recursive call strictly shrinks the list, so
fuel `c.length + 1` always reaches the fixed point. -/
def pruneFuel : Nat → Adj → Adj
  | 0, c => c
  | fuel + 1, c =>
    if removeSet c = ∅ then c else pruneFuel fuel (pruneRound c (removeSet c))

/-- The tail-pruning loop of source lines 90-95. -/
def prune (c : Adj) : Adj := pruneFuel (c.length + 1) c

/-- Simplification of one component: container collapse, then tail
pruning (source lines 82-95). -/
def simplifyCycle (dictOf : Node → Option Node) (c : Adj) : Adj :=
  prune (collapsePass dictOf c)

/-- The 26 single-letter candidate names,
`varnames = 'abcdefghijklmnopqrstuvwxyz'` (source line 106). -/
def alphabet : List (List Char) :=
  [['a'], ['b'], ['c'], ['d'], ['e'], ['f'], ['g'], ['h'], ['i'], ['j'],
   ['k'], ['l'], ['m'], ['n'], ['o'], ['p'], ['q'], ['r'], ['s'], ['t'],
   ['u'], ['v'], ['w'], ['x'], ['y'], ['z']]

/-- `[a+b for a in varnames for b in varnames]` (source line 108). -/
def squareNames (vs : List (List Char)) : List (List Char) :=
  vs.flatMap (fun a => vs.map (fun b => a ++ b))

/-- The loop `while len(varnames) < len(cycle): varnames = [a+b ...]`
(source lines 107-108), with fuel; one squaring already yields 676
names, so the fuel `n` passed by `varnamesFor` is ample for every
component size the theorems below mention. -/
def varnamesLoop : Nat → Nat → List (List Char) → List (List Char)
  | 0, _, vs => vs
  | fuel + 1, n, vs =>
    if vs.length < n then varnamesLoop fuel n (squareNames vs) else vs

/-- The candidate name list used for a component of `n` members. -/
def varnamesFor (n : Nat) : List (List Char) := varnamesLoop n n alphabet

/-- `varmap = dict(zip(cycle, varnames))` (source line 109), as the
assignment list from members (in dict order) to display names. -/
def assignNames (members : List Node) : List (Node × List Char) :=
  members.zip (varnamesFor members.length)

/-- Modelled from the claim: the single identifier sequence
a, b, ..., z, aa, ab, ... (listed far enough for every component size
the theorems below mention). -/
def claimedNameSeq : List (List Char) := alphabet ++ squareNames alphabet

/-- Modelled from the claim: member `k` receives the `(k+1)`-th
identifier of the fixed sequence `claimedNameSeq`. -/
def claimedAssignNames (members : List Node) : List (Node × List Char) :=
  members.zip claimedNameSeq

/-- A traceback frame: (source path, line number), paths modelled as
numbers.  Frames are ordered oldest first, innermost last. -/
abbrev Frame := Nat × Nat

/-- Classify one traceback (source lines 147-152): return
`some (tb[:i])` for the first index `i` whose frame's path equals this
tool's own `file` (a complete traceback, tool frames stripped), or
`none` if no such frame exists (an incomplete traceback). -/
def splitAtFile (file : Nat) : List Frame → Option (List Frame)
  | [] => none
  | f :: rest =>
    if f.1 = file then some [] else (splitAtFile file rest).map (f :: ·)

/-- The complete tracebacks among the fetched ones, in fetch order. -/
def completeOf (file : Nat) (tbs : List (Option (List Frame))) : List (List Frame) :=
  (tbs.filterMap id).filterMap (splitAtFile file)

/-- The incomplete tracebacks among the fetched ones, in fetch order. -/
def incompleteOf (file : Nat) (tbs : List (Option (List Frame))) : List (List Frame) :=
  (tbs.filterMap id).filter (fun tb => (splitAtFile file tb).isNone)

/-- `min(complete, key=len)` (source line 154): the first list of
minimal length. -/
def minShortest (l : List (List Frame)) : List Frame :=
  match l with
  | [] => []
  | t :: rest => rest.foldl (fun acc tb => if tb.length < acc.length then tb else acc) t

/-- The trimming loop (source lines 155-156):
`while common and any(tb[len(tb)-len(common):] != common for tb in
complete): common = common[1:]`. -/
def trimCommon (complete : List (List Frame)) : List Frame → List Frame
  | [] => []
  | f :: rest =>
    if ∃ tb ∈ complete, tb.drop (tb.length - (f :: rest).length) ≠ f :: rest then
      trimCommon complete rest
    else f :: rest

/-- The common traceback computed from the complete tracebacks
(source lines 154-156). -/
def reconcile (complete : List (List Frame)) : List Frame :=
  trimCommon complete (minShortest complete)

/-- What the `traceback` command prints (source lines 153-164):
the reconciled common traceback, or the please-increase-depth message,
or a single incomplete traceback followed by the `'  ...'` truncation
marker, or the no-traceback-found message. -/
inductive Report where
  | common (frames : List Frame)
  | cannotEstablish
  | truncated (frames : List Frame)
  | noneFound
deriving DecidableEq

/-- The `traceback` command's decision (source lines 153-164), given the
per-object tracebacks (in object order, `none` when `tracemalloc`
captured nothing for an object). -/
def tracebackReport (file : Nat) (tbs : List (Option (List Frame))) : Report :=
  if completeOf file tbs ≠ [] then .common (reconcile (completeOf file tbs))
  else if 1 < (incompleteOf file tbs).length then .cannotEstablish
  else
    match incompleteOf file tbs with
    | tb :: _ => .truncated tb
    | [] => .noneFound

/-- `size = sum(sys.getsizeof(item.obj) for item in cycle)`
(source line 81), computed on the not-yet-simplified component. -/
def componentSize (sizeOf : Node → Nat) (c : Adj) : Nat :=
  (c.map (fun p => sizeOf p.1)).sum

/-- The sort order of `self.cycles.sort(key=lambda v: (v[0], len(v[1])))`
(source line 97): ascending by size, then by the stored (simplified)
component's member count. -/
def rankLe (a b : Nat × Adj) : Prop :=
  a.1 < b.1 ∨ (a.1 = b.1 ∧ a.2.length ≤ b.2.length)

instance : DecidableRel rankLe := fun a b => by unfold rankLe; infer_instance

instance : IsTotal (Nat × Adj) rankLe :=
  ⟨fun a b => by
    unfold rankLe
    rcases Nat.lt_trichotomy a.1 b.1 with h | h | h
    · exact Or.inl (Or.inl h)
    · rcases Nat.le_total a.2.length b.2.length with h2 | h2
      · exact Or.inl (Or.inr ⟨h, h2⟩)
      · exact Or.inr (Or.inr ⟨h.symm, h2⟩)
    · exact Or.inr (Or.inl h)⟩

instance : IsTrans (Nat × Adj) rankLe :=
  ⟨fun a b c hab hbc => by
    unfold rankLe at *
    rcases hab with h | ⟨h, h2⟩
    · rcases hbc with h' | ⟨h', _⟩
      · exact Or.inl (h.trans h')
      · exact Or.inl (h'.symm ▸ h)
    · rcases hbc with h' | ⟨h', h2'⟩
      · exact Or.inl (h ▸ h')
      · exact Or.inr ⟨h.trans h', h2.trans h2'⟩⟩

/-- The component pipeline of `explore_cycles.__init__` (source lines
79-98): separate, record the pre-simplification size, simplify, then
stably sort by `(size, member count of the simplified component)`. -/
def initCycles (refs : Adj) (sizeOf : Node → Nat) (dictOf : Node → Option Node) :
    Option (List (Nat × Adj)) :=
  (separate refs).map (fun comps =>
    (comps.map (fun c => (componentSize sizeOf c, simplifyCycle dictOf c))).insertionSort
      rankLe)

/-- Modelled from the claim: the ranking key's member count is the one
computed before simplification. -/
def claimedRankLe (a b : (Nat × Nat) × Adj) : Prop :=
  a.1.1 < b.1.1 ∨ (a.1.1 = b.1.1 ∧ a.1.2 ≤ b.1.2)

instance : DecidableRel claimedRankLe := fun a b => by unfold claimedRankLe; infer_instance

/-- Modelled from the claim: the pipeline as the claim describes it,
ranking by (pre-simplification size, pre-simplification member count). -/
def initCyclesClaimed (refs : Adj) (sizeOf : Node → Nat) (dictOf : Node → Option Node) :
    Option (List (Nat × Adj)) :=
  (separate refs).map (fun comps =>
    ((comps.map (fun c =>
        ((componentSize sizeOf c, c.length), simplifyCycle dictOf c))).insertionSort
      claimedRankLe).map (fun q => (q.1.1, q.2)))

/-- `self.selection = 0` (source line 98). -/
def initialSelection : Nat := 0

/-- The loop invariant of the disjoint-set pass of `separate`, after the
entries `refs` have been processed: the union dict's keys are distinct
roots below the freshness counter, `rootmap` and the member sets of
`union` describe each other, every touched node and no other has a root,
and two touched nodes share a root exactly when they are connected by an
undirected path of processed edges. -/
structure Inv (refs : Adj) (st : SepSt) : Prop where
  nodupKeys : (st.union.map Prod.fst).Nodup
  keyLt : ∀ r ∈ st.union.map Prod.fst, r < st.fresh
  mem_union : ∀ n r, st.rootmap n = some r ↔ ∃ s, (r, s) ∈ st.union ∧ n ∈ s
  dom : ∀ n, (st.rootmap n).isSome ↔ n ∈ touched refs
  connIff : ∀ n m, n ∈ touched refs → m ∈ touched refs →
    (st.rootmap n = st.rootmap m ↔ conn refs n m)
  nonemptySets : ∀ p ∈ st.union, p.2.Nonempty

theorem touched_cons (p : Node × Finset Node) (l : Adj) :
    touched (p :: l) = insert p.1 p.2 ∪ touched l := rfl

theorem mem_touched {refs : Adj} {n : Node} :
    n ∈ touched refs ↔ ∃ p ∈ refs, n = p.1 ∨ n ∈ p.2 := by
  induction refs with
  | nil => simp [touched]
  | cons q l ih =>
    rw [touched_cons, Finset.mem_union, Finset.mem_insert, ih]
    simp only [List.mem_cons]
    constructor
    · rintro ((h | h) | ⟨p, hp, h⟩)
      · exact ⟨q, Or.inl rfl, Or.inl h⟩
      · exact ⟨q, Or.inl rfl, Or.inr h⟩
      · exact ⟨p, Or.inr hp, h⟩
    · rintro ⟨p, (rfl | hp), h⟩
      · exact Or.inl h
      · exact Or.inr ⟨p, hp, h⟩

theorem touched_append (l₁ l₂ : Adj) :
    touched (l₁ ++ l₂) = touched l₁ ∪ touched l₂ := by
  ext n
  simp only [mem_touched, Finset.mem_union, List.mem_append]
  constructor
  · rintro ⟨p, (h | h), hn⟩
    · exact Or.inl ⟨p, h, hn⟩
    · exact Or.inr ⟨p, h, hn⟩
  · rintro (⟨p, h, hn⟩ | ⟨p, h, hn⟩)
    · exact ⟨p, Or.inl h, hn⟩
    · exact ⟨p, Or.inr h, hn⟩

theorem mem_finsort {s : Finset Node} {n : Node} : n ∈ finsort s ↔ n ∈ s := by
  rcases s with ⟨m, nd⟩
  induction m using Quot.ind with
  | _ l =>
    change n ∈ l.insertionSort (· ≤ ·) ↔ _
    rw [(List.perm_insertionSort (· ≤ ·) l).mem_iff]
    exact Iff.rfl

theorem linkIn_symm {refs : Adj} {a b : Node} (h : linkIn refs a b) :
    linkIn refs b a := by
  obtain ⟨p, hp, h⟩ := h
  exact ⟨p, hp, h.symm⟩

theorem linkIn_touched {refs : Adj} {a b : Node} (h : linkIn refs a b) :
    a ∈ touched refs ∧ b ∈ touched refs := by
  obtain ⟨p, hp, (⟨rfl, hb⟩ | ⟨rfl, ha⟩)⟩ := h
  · exact ⟨mem_touched.mpr ⟨p, hp, Or.inl rfl⟩, mem_touched.mpr ⟨p, hp, Or.inr hb⟩⟩
  · exact ⟨mem_touched.mpr ⟨p, hp, Or.inr ha⟩, mem_touched.mpr ⟨p, hp, Or.inl rfl⟩⟩

theorem conn_refl {refs : Adj} (a : Node) : conn refs a a :=
  Relation.ReflTransGen.refl

theorem conn_symm {refs : Adj} {a b : Node} (h : conn refs a b) : conn refs b a :=
  Relation.ReflTransGen.symmetric (fun _ _ => linkIn_symm) h

theorem conn_trans {refs : Adj} {a b c : Node} (h₁ : conn refs a b)
    (h₂ : conn refs b c) : conn refs a c :=
  Relation.ReflTransGen.trans h₁ h₂

theorem conn_touched {refs : Adj} {a b : Node} (h : conn refs a b) :
    a = b ∨ (a ∈ touched refs ∧ b ∈ touched refs) := by
  induction h with
  | refl => exact Or.inl rfl
  | tail _ hlink ih =>
    rcases ih with rfl | ⟨ha, _⟩
    · exact Or.inr (linkIn_touched hlink)
    · exact Or.inr ⟨ha, (linkIn_touched hlink).2⟩

theorem mapOpt_isSome {α β : Type} {f : α → Option β} {l : List α}
    (h : ∀ a ∈ l, (f a).isSome) : (mapOpt f l).isSome := by
  induction l with
  | nil => simp [mapOpt]
  | cons a l ih =>
    obtain ⟨b, hb⟩ := Option.isSome_iff_exists.mp (h a (List.mem_cons_self a l))
    obtain ⟨bs, hbs⟩ := Option.isSome_iff_exists.mp
      (ih fun x hx => h x (List.mem_cons_of_mem a hx))
    simp [mapOpt, hb, hbs]

theorem mapOpt_eq_none {α β : Type} {f : α → Option β} {l : List α}
    (h : ∃ a ∈ l, f a = none) : mapOpt f l = none := by
  induction l with
  | nil => simp at h
  | cons a l ih =>
    obtain ⟨x, hx, hfx⟩ := h
    rcases List.mem_cons.mp hx with rfl | hx'
    · simp [mapOpt, hfx]
    · cases hfa : f a
      · simp [mapOpt, hfa]
      · simp [mapOpt, hfa, ih ⟨x, hx', hfx⟩]

theorem mapOpt_eq_some_forall₂ {α β : Type} {f : α → Option β} :
    ∀ {l : List α} {l' : List β}, mapOpt f l = some l' →
      List.Forall₂ (fun a b => f a = some b) l l' := by
  intro l
  induction l with
  | nil => intro l' h; simp [mapOpt] at h; simp [← h]
  | cons a l ih =>
    intro l' h
    cases hfa : f a with
    | none => simp [mapOpt, hfa] at h
    | some b =>
      cases hrest : mapOpt f l with
      | none => simp [mapOpt, hfa, hrest] at h
      | some bs =>
        simp only [mapOpt, hfa, hrest] at h
        obtain rfl : b :: bs = l' := by injection h
        exact List.Forall₂.cons hfa (ih hrest)

theorem lookup_isSome_iff {β : Type} {l : List (Node × β)} {k : Node} :
    (l.lookup k).isSome ↔ k ∈ l.map Prod.fst := by
  induction l with
  | nil => simp [List.lookup]
  | cons p l ih =>
    obtain ⟨a, b⟩ := p
    by_cases h : k = a
    · subst h; simp [List.lookup]
    · have hb : (k == a) = false := beq_eq_false_iff_ne.mpr h
      simp [List.lookup, hb, ih, h]

theorem lookup_eq_some_iff_of_nodup {β : Type} {l : List (Node × β)}
    (hnd : (l.map Prod.fst).Nodup) {k : Node} {v : β} :
    l.lookup k = some v ↔ (k, v) ∈ l := by
  induction l with
  | nil => simp [List.lookup]
  | cons p l ih =>
    obtain ⟨a, b⟩ := p
    simp only [List.map_cons, List.nodup_cons] at hnd
    by_cases h : k = a
    · subst h
      simp only [List.lookup, beq_self_eq_true, List.mem_cons]
      constructor
      · rintro h; cases h; exact Or.inl rfl
      · rintro (h | h)
        · cases h; rfl
        · exact absurd (List.mem_map_of_mem Prod.fst h) hnd.1
    · have hb : (k == a) = false := beq_eq_false_iff_ne.mpr h
      simp only [List.lookup, hb, List.mem_cons]
      rw [ih hnd.2]
      constructor
      · exact Or.inr
      · rintro (heq | hm)
        · cases heq; exact absurd rfl h
        · exact hm

theorem mem_foldl_union (l : List Nat) (f : Nat → Finset Node)
    (init : Finset Node) (n : Node) :
    n ∈ l.foldl (fun acc r => acc ∪ f r) init ↔ n ∈ init ∨ ∃ r ∈ l, n ∈ f r := by
  induction l generalizing init with
  | nil => simp
  | cons a l ih =>
    simp only [List.foldl_cons, ih, Finset.mem_union, List.mem_cons]
    constructor
    · rintro ((h | h) | ⟨r, hr, hn⟩)
      · exact Or.inl h
      · exact Or.inr ⟨a, Or.inl rfl, h⟩
      · exact Or.inr ⟨r, Or.inr hr, hn⟩
    · rintro (h | ⟨r, (rfl | hr), hn⟩)
      · exact Or.inl (Or.inl h)
      · exact Or.inl (Or.inr hn)
      · exact Or.inr ⟨r, hr, hn⟩

theorem countP_eq_one_of {α : Type} {l : List α} {p : α → Bool} {a : α}
    (hnd : l.Nodup) (ha : a ∈ l) (hpa : p a = true)
    (huniq : ∀ x ∈ l, p x = true → x = a) : l.countP p = 1 := by
  induction l with
  | nil => simp at ha
  | cons b l ih =>
    rw [List.nodup_cons] at hnd
    rcases List.mem_cons.mp ha with rfl | ha
    · have hz : l.countP p = 0 := by
        rw [List.countP_eq_zero]
        intro x hx hpx
        exact absurd (huniq x (List.mem_cons_of_mem _ hx) hpx ▸ hx) hnd.1
      rw [List.countP_cons, hz]
      simp [hpa]
    · have hb : p b = false := by
        by_contra h
        have := huniq b (List.mem_cons_self b l) (by revert h; cases p b <;> simp)
        exact hnd.1 (this ▸ ha)
      rw [List.countP_cons, hb,
        ih hnd.2 ha fun x hx hpx => huniq x (List.mem_cons_of_mem _ hx) hpx]
      simp

theorem countP_congr_forall₂ {α β : Type} {R : α → β → Prop}
    {p : α → Bool} {q : β → Bool} :
    ∀ {l : List α} {l' : List β}, List.Forall₂ R l l' →
      (∀ a b, R a b → p a = q b) → l.countP p = l'.countP q := by
  intro l l' h hpq
  induction h with
  | nil => rfl
  | cons hab _ ih =>
    rw [List.countP_cons, List.countP_cons, ih, hpq _ _ hab]

theorem linkIn_append_iff {refs : Adj} {kv : Node × Finset Node} {a b : Node} :
    linkIn (refs ++ [kv]) a b ↔
      linkIn refs a b ∨ (a = kv.1 ∧ b ∈ kv.2) ∨ (b = kv.1 ∧ a ∈ kv.2) := by
  unfold linkIn
  constructor
  · rintro ⟨p, hp, h⟩
    rcases List.mem_append.mp hp with hp' | hp'
    · exact Or.inl ⟨p, hp', h⟩
    · rcases List.mem_singleton.mp hp' with rfl
      rcases h with h | h
      · exact Or.inr (Or.inl h)
      · exact Or.inr (Or.inr h)
  · rintro (⟨p, hp, h⟩ | h | h)
    · exact ⟨p, List.mem_append.mpr (Or.inl hp), h⟩
    · exact ⟨kv, List.mem_append.mpr (Or.inr (List.mem_singleton.mpr rfl)), Or.inl h⟩
    · exact ⟨kv, List.mem_append.mpr (Or.inr (List.mem_singleton.mpr rfl)), Or.inr h⟩

theorem conn_mono_append {refs : Adj} {kv : Node × Finset Node} {a b : Node}
    (h : conn refs a b) : conn (refs ++ [kv]) a b :=
  Relation.ReflTransGen.mono (fun _ _ hl => linkIn_append_iff.mpr (Or.inl hl)) h

theorem conn_append_items {refs : Adj} {kv : Node × Finset Node} {x y : Node}
    (hx : x ∈ insert kv.1 kv.2) (hy : y ∈ insert kv.1 kv.2) :
    conn (refs ++ [kv]) x y := by
  have hto : ∀ z, z ∈ insert kv.1 kv.2 → conn (refs ++ [kv]) z kv.1 := by
    intro z hz
    rcases Finset.mem_insert.mp hz with rfl | hz
    · exact conn_refl _
    · exact Relation.ReflTransGen.single (linkIn_append_iff.mpr (Or.inr (Or.inr ⟨rfl, hz⟩)))
  exact conn_trans (hto x hx) (conn_symm (hto y hy))

theorem conn_append_iff {refs : Adj} {kv : Node × Finset Node} {n m : Node} :
    conn (refs ++ [kv]) n m ↔
      conn refs n m ∨
        ((∃ x ∈ insert kv.1 kv.2, conn refs n x) ∧
         (∃ y ∈ insert kv.1 kv.2, conn refs m y)) := by
  constructor
  · intro h
    induction h with
    | refl => exact Or.inl (conn_refl _)
    | tail _ hlink ih =>
      rename_i c m' _
      rcases linkIn_append_iff.mp hlink with hold | ⟨hc, hm'⟩ | ⟨hm', hc⟩
      · rcases ih with hnc | ⟨hn, ⟨y, hy, hcy⟩⟩
        · exact Or.inl (conn_trans hnc (Relation.ReflTransGen.single hold))
        · exact Or.inr ⟨hn, ⟨y, hy, conn_trans (conn_symm (Relation.ReflTransGen.single hold)) hcy⟩⟩
      · rcases ih with hnc | ⟨hn, _⟩
        · exact Or.inr ⟨⟨c, hc ▸ Finset.mem_insert_self _ _, hnc⟩,
            ⟨m', Finset.mem_insert_of_mem hm', conn_refl _⟩⟩
        · exact Or.inr ⟨hn, ⟨m', Finset.mem_insert_of_mem hm', conn_refl _⟩⟩
      · rcases ih with hnc | ⟨hn, _⟩
        · exact Or.inr ⟨⟨c, Finset.mem_insert_of_mem hc, hnc⟩,
            ⟨m', hm' ▸ Finset.mem_insert_self _ _, conn_refl _⟩⟩
        · exact Or.inr ⟨hn, ⟨m', hm' ▸ Finset.mem_insert_self _ _, conn_refl _⟩⟩
  · rintro (h | ⟨⟨x, hx, hnx⟩, ⟨y, hy, hmy⟩⟩)
    · exact conn_mono_append h
    · exact conn_trans (conn_mono_append hnx)
        (conn_trans (conn_append_items hx hy) (conn_symm (conn_mono_append hmy)))


theorem nodup_pair_unique {β : Type} {l : List (Nat × β)}
    (hnd : (l.map Prod.fst).Nodup) {a : Nat} {b b' : β}
    (h : (a, b) ∈ l) (h' : (a, b') ∈ l) : b = b' := by
  have h1 := (lookup_eq_some_iff_of_nodup hnd).mpr h
  have h2 := (lookup_eq_some_iff_of_nodup hnd).mpr h'
  rw [h1] at h2
  exact Option.some.inj h2

theorem init_inv : Inv [] initSt := by
  constructor
  · simp [initSt]
  · simp [initSt]
  · intro n r
    simp [initSt]
  · intro n
    simp [initSt, touched]
  · intro n m hn _
    simp [touched] at hn
  · simp [initSt]

theorem touched_single (kv : Node × Finset Node) :
    touched [kv] = insert kv.1 kv.2 := by
  ext n
  simp [mem_touched, Finset.mem_insert]

theorem sepStep_inv {refs : Adj} {st : SepSt} (inv : Inv refs st) (kv : Node × Finset Node) :
    Inv (refs ++ [kv]) (sepStep st kv) := by
  classical
  have htouch : touched (refs ++ [kv]) = touched refs ∪ insert kv.1 kv.2 := by
    rw [touched_append, touched_single]
  have hrootsc : ∀ r, r ∈ ((finsort (insert kv.1 kv.2)).filterMap st.rootmap).dedup ↔
      ∃ x ∈ insert kv.1 kv.2, st.rootmap x = some r := by
    intro r
    rw [List.mem_dedup, List.mem_filterMap]
    constructor
    · rintro ⟨x, hx, hxr⟩
      exact ⟨x, mem_finsort.mp hx, hxr⟩
    · rintro ⟨x, hx, hxr⟩
      exact ⟨x, mem_finsort.mpr hx, hxr⟩
  have hrlt : ∀ n r, st.rootmap n = some r → r < st.fresh := by
    intro n r h
    obtain ⟨s, hs, _⟩ := (inv.mem_union n r).mp h
    exact inv.keyLt r (List.mem_map_of_mem Prod.fst hs)
  cases hcase : ((finsort (insert kv.1 kv.2)).filterMap st.rootmap).dedup with
  | nil =>
    have hnone : ∀ x ∈ insert kv.1 kv.2, st.rootmap x = none := by
      intro x hx
      cases hrx : st.rootmap x with
      | none => rfl
      | some r =>
        have hm := (hrootsc r).mpr ⟨x, hx, hrx⟩
        rw [hcase] at hm
        simp at hm
    have hxT : ∀ x ∈ insert kv.1 kv.2, x ∉ touched refs := by
      intro x hx hT
      have := (inv.dom x).mpr hT
      rw [hnone x hx] at this
      simp at this
    have hstep : sepStep st kv =
        { rootmap := fun n => if n ∈ insert kv.1 kv.2 then some st.fresh else st.rootmap n
          union := st.union ++ [(st.fresh, insert kv.1 kv.2)]
          fresh := st.fresh + 1 } := by
      simp only [sepStep, hcase]
    rw [hstep]
    have hreach : ∀ z ∈ touched refs, ¬ ∃ x ∈ insert kv.1 kv.2, conn refs z x := by
      rintro z hz ⟨x, hx, hzx⟩
      rcases conn_touched hzx with rfl | ⟨_, hxT'⟩
      · exact hxT z hx hz
      · exact hxT x hx hxT'
    constructor
    · rw [List.map_append]
      refine List.Nodup.append inv.nodupKeys (List.nodup_singleton _) ?_
      intro r hr hr'
      simp only [List.map_cons, List.map_nil, List.mem_singleton] at hr'
      subst hr'
      exact absurd (inv.keyLt _ hr) (lt_irrefl _)
    · intro r hr
      rw [List.map_append] at hr
      rcases List.mem_append.mp hr with hr' | hr'
      · exact Nat.lt_succ_of_lt (inv.keyLt r hr')
      · simp only [List.map_cons, List.map_nil, List.mem_singleton] at hr'
        subst hr'
        exact Nat.lt_succ_self _
    · intro n r
      by_cases hn : n ∈ insert kv.1 kv.2
      · simp only [if_pos hn]
        constructor
        · intro h
          have hr : r = st.fresh := (Option.some.inj h).symm
          subst hr
          exact ⟨insert kv.1 kv.2,
            List.mem_append.mpr (Or.inr (List.mem_singleton.mpr rfl)), hn⟩
        · rintro ⟨s, hs, hns⟩
          rcases List.mem_append.mp hs with hs' | hs'
          · have := (inv.mem_union n r).mpr ⟨s, hs', hns⟩
            rw [hnone n hn] at this
            cases this
          · have heq := List.mem_singleton.mp hs'
            injection heq with h1 _
            rw [h1]
      · simp only [if_neg hn]
        rw [inv.mem_union n r]
        constructor
        · rintro ⟨s, hs, hns⟩
          exact ⟨s, List.mem_append.mpr (Or.inl hs), hns⟩
        · rintro ⟨s, hs, hns⟩
          rcases List.mem_append.mp hs with hs' | hs'
          · exact ⟨s, hs', hns⟩
          · have heq := List.mem_singleton.mp hs'
            injection heq with _ h2
            subst h2
            exact absurd hns hn
    · intro n
      rw [htouch, Finset.mem_union]
      by_cases hn : n ∈ insert kv.1 kv.2
      · simp [hn]
      · simp only [if_neg hn]
        rw [inv.dom n]
        constructor
        · exact Or.inl
        · rintro (h | h)
          · exact h
          · exact absurd h hn
    · intro n m hn hm
      rw [htouch, Finset.mem_union] at hn hm
      rw [conn_append_iff]
      rcases hn with hnT | hnI
      · have hnI0 : n ∉ insert kv.1 kv.2 := fun h => hxT n h hnT
        rcases hm with hmT | hmI
        · have hmI0 : m ∉ insert kv.1 kv.2 := fun h => hxT m h hmT
          simp only [if_neg hnI0, if_neg hmI0]
          rw [inv.connIff n m hnT hmT]
          constructor
          · exact Or.inl
          · rintro (h | ⟨hPn, _⟩)
            · exact h
            · exact absurd hPn (hreach n hnT)
        · have hmT' : m ∉ touched refs := fun h => hxT m hmI h
          simp only [if_neg hnI0, if_pos hmI]
          obtain ⟨r, hr⟩ := Option.isSome_iff_exists.mp ((inv.dom n).mpr hnT)
          rw [hr]
          constructor
          · intro h
            have := Option.some.inj h
            exact absurd (this ▸ hrlt n r hr) (lt_irrefl _)
          · rintro (h | ⟨hPn, _⟩)
            · rcases conn_touched h with rfl | ⟨_, hmT''⟩
              · exact absurd hnT hmT'
              · exact absurd hmT'' hmT'
            · exact absurd hPn (hreach n hnT)
      · rcases hm with hmT | hmI
        · have hnT' : n ∉ touched refs := fun h => hxT n hnI h
          have hmI0 : m ∉ insert kv.1 kv.2 := fun h => hxT m h hmT
          simp only [if_pos hnI, if_neg hmI0]
          obtain ⟨r, hr⟩ := Option.isSome_iff_exists.mp ((inv.dom m).mpr hmT)
          rw [hr]
          constructor
          · intro h
            have := Option.some.inj h
            exact absurd (this ▸ hrlt m r hr) (lt_irrefl _)
          · rintro (h | ⟨_, hPm⟩)
            · rcases conn_touched h with rfl | ⟨hnT'', _⟩
              · exact absurd hmT hnT'
              · exact absurd hnT'' hnT'
            · exact absurd hPm (hreach m hmT)
        · simp only [if_pos hnI, if_pos hmI]
          constructor
          · intro _
            exact Or.inr ⟨⟨n, hnI, conn_refl _⟩, ⟨m, hmI, conn_refl _⟩⟩
          · intro _
            trivial
    · intro p hp
      rcases List.mem_append.mp hp with hp' | hp'
      · exact inv.nonemptySets p hp'
      · have heq := List.mem_singleton.mp hp'
        subst heq
        exact ⟨kv.1, Finset.mem_insert_self _ _⟩
  | cons root rmroots =>
    have hall : ∀ r, r ∈ root :: rmroots ↔ ∃ x ∈ insert kv.1 kv.2, st.rootmap x = some r := by
      intro r
      rw [← hcase]
      exact hrootsc r
    have hnd : (root :: rmroots).Nodup := hcase ▸ List.nodup_dedup _
    have hrootnotrm : root ∉ rmroots := (List.nodup_cons.mp hnd).1
    obtain ⟨x0, hx0, hx0r⟩ := (hall root).mp (List.mem_cons_self _ _)
    obtain ⟨s0, hs0, hx0s0⟩ := (inv.mem_union x0 root).mp hx0r
    have hclass : ∀ r s, (r, s) ∈ st.union →
        ∀ n, n ∈ ((st.union.lookup r).getD ∅) ↔ st.rootmap n = some r := by
      intro r s hrs n
      have hl : st.union.lookup r = some s := (lookup_eq_some_iff_of_nodup inv.nodupKeys).mpr hrs
      rw [hl]
      simp only [Option.getD_some]
      constructor
      · intro hns
        exact (inv.mem_union n r).mpr ⟨s, hrs, hns⟩
      · intro hn
        obtain ⟨s', hs', hns'⟩ := (inv.mem_union n r).mp hn
        rwa [nodup_pair_unique inv.nodupKeys hs' hrs] at hns'
    have hrment : ∀ r ∈ root :: rmroots, ∃ s, (r, s) ∈ st.union := by
      intro r hr
      obtain ⟨x, hx, hxr⟩ := (hall r).mp hr
      obtain ⟨s, hs, _⟩ := (inv.mem_union x r).mp hxr
      exact ⟨s, hs⟩
    have hitems : ∀ n, n ∈ rmroots.foldl (fun acc r => acc ∪ ((st.union.lookup r).getD ∅))
        (insert kv.1 kv.2) ↔
        (n ∈ insert kv.1 kv.2 ∨ ∃ r ∈ rmroots, st.rootmap n = some r) := by
      intro n
      rw [mem_foldl_union]
      constructor
      · rintro (h | ⟨r, hr, hn⟩)
        · exact Or.inl h
        · obtain ⟨s, hs⟩ := hrment r (List.mem_cons_of_mem _ hr)
          exact Or.inr ⟨r, hr, (hclass r s hs n).mp hn⟩
      · rintro (h | ⟨r, hr, hn⟩)
        · exact Or.inl h
        · obtain ⟨s, hs⟩ := hrment r (List.mem_cons_of_mem _ hr)
          exact Or.inr ⟨r, hr, (hclass r s hs n).mpr hn⟩
    have hstep : sepStep st kv =
        { rootmap := fun n =>
            if n ∈ rmroots.foldl (fun acc r => acc ∪ ((st.union.lookup r).getD ∅))
                (insert kv.1 kv.2) then some root else st.rootmap n
          union := (st.union.filter (fun p => decide (p.1 ∉ rmroots))).map
            (fun p => if p.1 = root then (p.1, p.2 ∪ rmroots.foldl
              (fun acc r => acc ∪ ((st.union.lookup r).getD ∅)) (insert kv.1 kv.2)) else p)
          fresh := st.fresh } := by
      simp only [sepStep, hcase]
    rw [hstep]
    set items : Finset Node :=
      rmroots.foldl (fun acc r => acc ∪ ((st.union.lookup r).getD ∅)) (insert kv.1 kv.2)
      with hitemsdef
    have hmemU : ∀ r s, ((r, s) ∈ (st.union.filter (fun p => decide (p.1 ∉ rmroots))).map
        (fun p => if p.1 = root then (p.1, p.2 ∪ items) else p)) ↔
        ((r = root ∧ s = s0 ∪ items) ∨ (r ≠ root ∧ r ∉ rmroots ∧ (r, s) ∈ st.union)) := by
      intro r s
      rw [List.mem_map]
      constructor
      · rintro ⟨p, hp, hupd⟩
        obtain ⟨hpU, hprm⟩ := List.mem_filter.mp hp
        rw [decide_eq_true_eq] at hprm
        by_cases hpr : p.1 = root
        · rw [if_pos hpr] at hupd
          obtain ⟨h1, h2⟩ := Prod.mk.inj hupd
          left
          have hpmem : (root, p.2) ∈ st.union := by
            have h : (p.1, p.2) ∈ st.union := hpU
            rw [hpr] at h
            exact h
          have hps0 : p.2 = s0 := nodup_pair_unique inv.nodupKeys hpmem hs0
          constructor
          · rw [← h1, hpr]
          · rw [← h2, hps0]
        · rw [if_neg hpr] at hupd
          right
          have h : (p.1, p.2) = (r, s) := hupd
          obtain ⟨h1, h2⟩ := Prod.mk.inj h
          subst h1
          subst h2
          exact ⟨hpr, hprm, hpU⟩
      · rintro (⟨hr1, hs1⟩ | ⟨hne, hnrm, hsU⟩)
        · refine ⟨(root, s0), List.mem_filter.mpr ⟨hs0, ?_⟩, ?_⟩
          · rw [decide_eq_true_eq]
            exact hrootnotrm
          · simp [hr1, hs1]
        · refine ⟨(r, s), List.mem_filter.mpr ⟨hsU, ?_⟩, ?_⟩
          · rw [decide_eq_true_eq]
            exact hnrm
          · dsimp only
            rw [if_neg hne]
    have hchar : ∀ z, ((if z ∈ items then some root else st.rootmap z) = some root ↔
        ∃ x ∈ insert kv.1 kv.2, conn refs z x) := by
      intro z
      constructor
      · intro h
        by_cases hz : z ∈ items
        · rcases (hitems z).mp hz with hzI | ⟨r, hr, hzr⟩
          · exact ⟨z, hzI, conn_refl _⟩
          · obtain ⟨x, hx, hxr⟩ := (hall r).mp (List.mem_cons_of_mem _ hr)
            have hzT : z ∈ touched refs := (inv.dom z).mp (by rw [hzr]; rfl)
            have hxT : x ∈ touched refs := (inv.dom x).mp (by rw [hxr]; rfl)
            exact ⟨x, hx, (inv.connIff z x hzT hxT).mp (by rw [hzr, hxr])⟩
        · rw [if_neg hz] at h
          have hzT : z ∈ touched refs := (inv.dom z).mp (by rw [h]; rfl)
          have hx0T : x0 ∈ touched refs := (inv.dom x0).mp (by rw [hx0r]; rfl)
          exact ⟨x0, hx0, (inv.connIff z x0 hzT hx0T).mp (by rw [h, hx0r])⟩
      · rintro ⟨x, hx, hzx⟩
        rcases conn_touched hzx with rfl | ⟨hzT, hxT⟩
        · rw [if_pos ((hitems z).mpr (Or.inl hx))]
        · obtain ⟨r, hr⟩ := Option.isSome_iff_exists.mp ((inv.dom x).mpr hxT)
          have hrin := (hall r).mpr ⟨x, hx, hr⟩
          have hzr : st.rootmap z = some r := by
            rw [(inv.connIff z x hzT hxT).mpr hzx, hr]
          rcases List.mem_cons.mp hrin with rfl | hrm
          · by_cases hz : z ∈ items
            · rw [if_pos hz]
            · rw [if_neg hz]
              exact hzr
          · rw [if_pos ((hitems z).mpr (Or.inr ⟨r, hrm, hzr⟩))]
    have hnonroot : ∀ z r, (if z ∈ items then some root else st.rootmap z) = some r →
        r ≠ root → (st.rootmap z = some r ∧ r ∉ rmroots ∧ z ∉ items) := by
      intro z r h hne
      by_cases hz : z ∈ items
      · rw [if_pos hz] at h
        exact absurd (Option.some.inj h).symm hne
      · rw [if_neg hz] at h
        refine ⟨h, ?_, hz⟩
        intro hrm
        exact hz ((hitems z).mpr (Or.inr ⟨r, hrm, h⟩))
    have hkeys' : (((st.union.filter (fun p => decide (p.1 ∉ rmroots))).map
        (fun p => if p.1 = root then (p.1, p.2 ∪ items) else p)).map Prod.fst) =
        (st.union.filter (fun p => decide (p.1 ∉ rmroots))).map Prod.fst := by
      rw [List.map_map]
      apply List.map_congr_left
      intro p _
      by_cases h : p.1 = root
      · simp [h]
      · simp [h]
    have htouched' : ∀ n, n ∈ touched (refs ++ [kv]) ↔
        (n ∈ touched refs ∨ n ∈ insert kv.1 kv.2) := by
      intro n
      rw [htouch, Finset.mem_union]
    constructor
    · dsimp only
      rw [hkeys']
      exact List.Nodup.sublist ((List.filter_sublist _).map Prod.fst) inv.nodupKeys
    · dsimp only
      intro r hr
      rw [hkeys'] at hr
      obtain ⟨p, hp, rfl⟩ := List.mem_map.mp hr
      exact inv.keyLt _ (List.mem_map_of_mem Prod.fst (List.mem_of_mem_filter hp))
    · dsimp only
      intro n r
      constructor
      · intro h
        by_cases hr : r = root
        · refine ⟨s0 ∪ items, (hmemU r (s0 ∪ items)).mpr (Or.inl ⟨hr, rfl⟩), ?_⟩
          by_cases hn : n ∈ items
          · exact Finset.mem_union_right _ hn
          · rw [if_neg hn, hr] at h
            obtain ⟨s', hs', hns'⟩ := (inv.mem_union n root).mp h
            rw [nodup_pair_unique inv.nodupKeys hs' hs0] at hns'
            exact Finset.mem_union_left _ hns'
        · obtain ⟨hRn, hrm, _⟩ := hnonroot n r h hr
          obtain ⟨s', hs', hns'⟩ := (inv.mem_union n r).mp hRn
          exact ⟨s', (hmemU r s').mpr (Or.inr ⟨hr, hrm, hs'⟩), hns'⟩
      · rintro ⟨s, hsU, hns⟩
        rcases (hmemU r s).mp hsU with ⟨hr1, hs1⟩ | ⟨hne, hnrm, hsU'⟩
        · rw [hs1] at hns
          rw [hr1]
          rcases Finset.mem_union.mp hns with hn0 | hni
          · by_cases hn : n ∈ items
            · rw [if_pos hn]
            · rw [if_neg hn]
              exact (inv.mem_union n root).mpr ⟨s0, hs0, hn0⟩
          · rw [if_pos hni]
        · have hRn : st.rootmap n = some r := (inv.mem_union n r).mpr ⟨s, hsU', hns⟩
          have hni : n ∉ items := by
            intro hn
            rcases (hitems n).mp hn with hnI | ⟨r', hr', hnr'⟩
            · have hin := (hall r).mpr ⟨n, hnI, hRn⟩
              rcases List.mem_cons.mp hin with h' | h'
              · exact hne h'
              · exact hnrm h'
            · rw [hRn] at hnr'
              have heq : r = r' := Option.some.inj hnr'
              subst heq
              exact hnrm hr'
          rw [if_neg hni]
          exact hRn
    · dsimp only
      intro n
      rw [htouched' n]
      by_cases hn : n ∈ items
      · rw [if_pos hn]
        constructor
        · intro _
          rcases (hitems n).mp hn with h | ⟨r, _, hr⟩
          · exact Or.inr h
          · exact Or.inl ((inv.dom n).mp (by rw [hr]; rfl))
        · intro _
          rfl
      · rw [if_neg hn]
        rw [inv.dom n]
        constructor
        · exact Or.inl
        · rintro (h | h)
          · exact h
          · exact absurd ((hitems n).mpr (Or.inl h)) hn
    · dsimp only
      intro n m hn hm
      rw [htouched'] at hn hm
      rw [conn_append_iff]
      have hsome : ∀ z, (z ∈ touched refs ∨ z ∈ insert kv.1 kv.2) →
          ∃ r, (if z ∈ items then some root else st.rootmap z) = some r := by
        intro z hz
        by_cases h : z ∈ items
        · exact ⟨root, if_pos h⟩
        · rw [if_neg h]
          rcases hz with h' | h'
          · exact Option.isSome_iff_exists.mp ((inv.dom z).mpr h')
          · exact absurd ((hitems z).mpr (Or.inl h')) h
      obtain ⟨rn, hrn⟩ := hsome n hn
      obtain ⟨rm, hrm⟩ := hsome m hm
      by_cases h1 : rn = root
      · rw [h1] at hrn
        by_cases h2 : rm = root
        · rw [h2] at hrm
          rw [hrn, hrm]
          have hPn := (hchar n).mp hrn
          have hPm := (hchar m).mp hrm
          constructor
          · intro _
            exact Or.inr ⟨hPn, hPm⟩
          · intro _
            rfl
        · rw [hrn, hrm]
          have hPn := (hchar n).mp hrn
          have hnPm : ¬ ∃ y ∈ insert kv.1 kv.2, conn refs m y := by
            intro hPm
            have h := (hchar m).mpr hPm
            rw [hrm] at h
            exact h2 (Option.some.inj h)
          constructor
          · intro h
            exact absurd (Option.some.inj h).symm h2
          · rintro (hc | ⟨_, hPm⟩)
            · obtain ⟨x, hx, hnx⟩ := hPn
              exact absurd ⟨x, hx, conn_trans (conn_symm hc) hnx⟩ hnPm
            · exact absurd hPm hnPm
      · by_cases h2 : rm = root
        · rw [h2] at hrm
          rw [hrn, hrm]
          have hPm := (hchar m).mp hrm
          have hnPn : ¬ ∃ x ∈ insert kv.1 kv.2, conn refs n x := by
            intro hPn
            have h := (hchar n).mpr hPn
            rw [hrn] at h
            exact h1 (Option.some.inj h)
          constructor
          · intro h
            exact absurd (Option.some.inj h) h1
          · rintro (hc | ⟨hPn, _⟩)
            · obtain ⟨y, hy, hmy⟩ := hPm
              exact absurd ⟨y, hy, conn_trans hc hmy⟩ hnPn
            · exact absurd hPn hnPn
        · rw [hrn, hrm]
          obtain ⟨hRn, _, _⟩ := hnonroot n rn hrn h1
          obtain ⟨hRm, _, _⟩ := hnonroot m rm hrm h2
          have hnT : n ∈ touched refs := (inv.dom n).mp (by rw [hRn]; rfl)
          have hmT : m ∈ touched refs := (inv.dom m).mp (by rw [hRm]; rfl)
          have hnPn : ¬ ∃ x ∈ insert kv.1 kv.2, conn refs n x := by
            intro hPn
            have h := (hchar n).mpr hPn
            rw [hrn] at h
            exact h1 (Option.some.inj h)
          constructor
          · intro h
            refine Or.inl ((inv.connIff n m hnT hmT).mp ?_)
            rw [hRn, hRm]
            exact h
          · rintro (hc | ⟨hPn, _⟩)
            · have h := (inv.connIff n m hnT hmT).mpr hc
              rw [hRn, hRm] at h
              exact h
            · exact absurd hPn hnPn
    · dsimp only
      intro p hp
      obtain ⟨r, s⟩ := p
      rcases (hmemU r s).mp hp with ⟨hr1, hs1⟩ | ⟨_, _, hsU⟩
      · dsimp only
        rw [hs1]
        exact ⟨x0, Finset.mem_union_left _ hx0s0⟩
      · exact inv.nonemptySets (r, s) hsU


theorem runSep_inv (refs : Adj) : Inv refs (runSep refs) := by
  have h : ∀ (l : List (Node × Finset Node)) (pre : Adj) (st : SepSt),
      Inv pre st → Inv (pre ++ l) (l.foldl sepStep st) := by
    intro l
    induction l with
    | nil =>
      intro pre st h
      simpa using h
    | cons kv l ih =>
      intro pre st h
      have h2 := ih (pre ++ [kv]) (sepStep st kv) (sepStep_inv h kv)
      rw [List.append_assoc] at h2
      exact h2
  exact h refs [] initSt init_inv


theorem mem_keysF {refs : Adj} {k : Node} :
    k ∈ keysF refs ↔ ∃ p ∈ refs, k = p.1 := by
  unfold keysF
  rw [List.mem_toFinset, List.mem_map]
  constructor
  · rintro ⟨p, hp, rfl⟩
    exact ⟨p, hp, rfl⟩
  · rintro ⟨p, hp, rfl⟩
    exact ⟨p, hp, rfl⟩

theorem touched_eq_keysF {refs : Adj} (hclosed : ∀ p ∈ refs, p.2 ⊆ keysF refs) :
    touched refs = keysF refs := by
  ext n
  rw [mem_touched, mem_keysF]
  constructor
  · rintro ⟨p, hp, (rfl | hn)⟩
    · exact ⟨p, hp, rfl⟩
    · exact mem_keysF.mp (hclosed p hp hn)
  · rintro ⟨p, hp, rfl⟩
    exact ⟨p, hp, Or.inl rfl⟩

theorem separate_isSome {refs : Adj} (hclosed : ∀ p ∈ refs, p.2 ⊆ keysF refs) :
    (separate refs).isSome := by
  have inv := runSep_inv refs
  have hTK := touched_eq_keysF hclosed
  apply mapOpt_isSome
  intro p hp
  apply mapOpt_isSome
  intro k hk
  have hks : k ∈ p.2 := mem_finsort.mp hk
  have hrk : (runSep refs).rootmap k = some p.1 :=
    (inv.mem_union k p.1).mpr ⟨p.2, by exact hp, hks⟩
  have hkT : k ∈ touched refs := (inv.dom k).mp (by rw [hrk]; rfl)
  rw [hTK] at hkT
  obtain ⟨q, hq, rfl⟩ := mem_keysF.mp hkT
  have hls : (refs.lookup q.1).isSome :=
    lookup_isSome_iff.mpr (List.mem_map_of_mem Prod.fst hq)
  obtain ⟨v, hv⟩ := Option.isSome_iff_exists.mp hls
  rw [hv]
  rfl

theorem forall₂_exists_left {α β : Type} {R : α → β → Prop} :
    ∀ {l : List α} {l' : List β}, List.Forall₂ R l l' → ∀ a ∈ l, ∃ b ∈ l', R a b := by
  intro l l' h
  induction h with
  | nil =>
    intro a ha
    simp at ha
  | cons hab _ ih =>
    intro a ha
    rcases List.mem_cons.mp ha with rfl | ha'
    · exact ⟨_, List.mem_cons_self _ _, hab⟩
    · obtain ⟨b, hb, hRb⟩ := ih a ha'
      exact ⟨b, List.mem_cons_of_mem _ hb, hRb⟩

theorem forall₂_exists_right {α β : Type} {R : α → β → Prop} :
    ∀ {l : List α} {l' : List β}, List.Forall₂ R l l' → ∀ b ∈ l', ∃ a ∈ l, R a b := by
  intro l l' h
  induction h with
  | nil =>
    intro b hb
    simp at hb
  | cons hab _ ih =>
    intro b hb
    rcases List.mem_cons.mp hb with rfl | hb'
    · exact ⟨_, List.mem_cons_self _ _, hab⟩
    · obtain ⟨a, ha, hRa⟩ := ih b hb'
      exact ⟨a, List.mem_cons_of_mem _ ha, hRa⟩

theorem forall₂_lookup_fst {refs : Adj} :
    ∀ {l : List Node} {c : Adj},
      List.Forall₂ (fun k kv => (refs.lookup k).map (fun v => (k, v)) = some kv) l c →
      c.map Prod.fst = l := by
  intro l c h
  induction h with
  | nil => rfl
  | cons hab _ ih =>
    obtain ⟨v, _, hkv⟩ := Option.map_eq_some'.mp hab
    rw [List.map_cons, ih, ← hkv]

theorem separate_bridge {refs : Adj} {comps : List Adj}
    (h : separate refs = some comps) :
    List.Forall₂ (fun pr c => c.map Prod.fst = finsort pr.2)
      (runSep refs).union comps := by
  have h2 := mapOpt_eq_some_forall₂ h
  refine List.Forall₂.imp ?_ h2
  intro pr c hin
  exact forall₂_lookup_fst (mapOpt_eq_some_forall₂ hin)

/-- C1: for an adjacency mapping whose referent sets only mention keys of
the mapping — exactly the shape the Reference Graph Builder produces —
`separate` succeeds, every key lies in exactly one output component, and
two keys share a component exactly when they are joined by an undirected
path of the mapping's edges. -/
theorem separate_partition (refs : Adj)
    (hclosed : ∀ p ∈ refs, p.2 ⊆ keysF refs) :
    ∃ comps, separate refs = some comps ∧
      (∀ k ∈ keysF refs, comps.countP (fun c => decide (k ∈ c.map Prod.fst)) = 1) ∧
      (∀ k m, k ∈ keysF refs → m ∈ keysF refs →
        ((∃ c ∈ comps, k ∈ c.map Prod.fst ∧ m ∈ c.map Prod.fst) ↔ conn refs k m)) := by
  have inv := runSep_inv refs
  have hTK := touched_eq_keysF hclosed
  obtain ⟨comps, hsep⟩ := Option.isSome_iff_exists.mp (separate_isSome hclosed)
  have hbr := separate_bridge hsep
  refine ⟨comps, hsep, ?_, ?_⟩
  · intro k hk
    have hcnt : (runSep refs).union.countP (fun pr => decide (k ∈ pr.2)) =
        comps.countP (fun c => decide (k ∈ c.map Prod.fst)) := by
      apply countP_congr_forall₂ hbr
      intro pr c hR
      apply decide_eq_decide.mpr
      rw [hR, mem_finsort]
    rw [← hcnt]
    have hkT : k ∈ touched refs := by
      rw [hTK]
      exact hk
    obtain ⟨r, hr⟩ := Option.isSome_iff_exists.mp ((inv.dom k).mpr hkT)
    obtain ⟨s, hs, hks⟩ := (inv.mem_union k r).mp hr
    apply countP_eq_one_of (a := (r, s)) (List.Nodup.of_map _ inv.nodupKeys) hs
      (decide_eq_true hks)
    intro x hx hpx
    have hkx : k ∈ x.2 := of_decide_eq_true hpx
    have hrx : (runSep refs).rootmap k = some x.1 :=
      (inv.mem_union k x.1).mpr ⟨x.2, by exact hx, hkx⟩
    rw [hr] at hrx
    have h1 : x.1 = r := (Option.some.inj hrx).symm
    have h2 : x.2 = s := by
      apply nodup_pair_unique inv.nodupKeys _ hs
      rw [← h1]
      exact hx
    exact Prod.ext h1 h2
  · intro k m hk hm
    constructor
    · rintro ⟨c, hc, hkc, hmc⟩
      obtain ⟨pr, hpr, hR⟩ := forall₂_exists_right hbr c hc
      rw [hR, mem_finsort] at hkc hmc
      have h1 : (runSep refs).rootmap k = some pr.1 :=
        (inv.mem_union k pr.1).mpr ⟨pr.2, by exact hpr, hkc⟩
      have h2 : (runSep refs).rootmap m = some pr.1 :=
        (inv.mem_union m pr.1).mpr ⟨pr.2, by exact hpr, hmc⟩
      apply (inv.connIff k m (by rw [hTK]; exact hk) (by rw [hTK]; exact hm)).mp
      rw [h1, h2]
    · intro hconn
      have hkT : k ∈ touched refs := by
        rw [hTK]
        exact hk
      have hmT : m ∈ touched refs := by
        rw [hTK]
        exact hm
      have heq := (inv.connIff k m hkT hmT).mpr hconn
      obtain ⟨r, hr⟩ := Option.isSome_iff_exists.mp ((inv.dom k).mpr hkT)
      obtain ⟨s, hs, hks⟩ := (inv.mem_union k r).mp hr
      have hmr : (runSep refs).rootmap m = some r := by
        rw [← heq]
        exact hr
      obtain ⟨s', hs', hms⟩ := (inv.mem_union m r).mp hmr
      have hss : s' = s := nodup_pair_unique inv.nodupKeys hs' hs
      obtain ⟨c, hc, hR⟩ := forall₂_exists_left hbr (r, s) hs
      refine ⟨c, hc, ?_, ?_⟩
      · rw [hR, mem_finsort]
        exact hks
      · rw [hR, mem_finsort]
        rw [hss] at hms
        exact hms

/-- Witness for `separate_partition` on the four-node graph with the two
components 0 ↔ 1 and 2 → 3. -/
theorem separate_partition_witness :
    (∀ p ∈ ([(0, {1}), (1, {0}), (2, {3}), (3, ∅)] : Adj),
      p.2 ⊆ keysF [(0, {1}), (1, {0}), (2, {3}), (3, ∅)]) ∧
    (∃ comps, separate [(0, {1}), (1, {0}), (2, {3}), (3, ∅)] = some comps ∧
      (∀ k ∈ keysF [(0, {1}), (1, {0}), (2, {3}), (3, ∅)],
        comps.countP (fun c => decide (k ∈ c.map Prod.fst)) = 1) ∧
      (∀ k m, k ∈ keysF [(0, {1}), (1, {0}), (2, {3}), (3, ∅)] →
        m ∈ keysF [(0, {1}), (1, {0}), (2, {3}), (3, ∅)] →
        ((∃ c ∈ comps, k ∈ c.map Prod.fst ∧ m ∈ c.map Prod.fst) ↔
          conn [(0, {1}), (1, {0}), (2, {3}), (3, ∅)] k m))) :=
  ⟨by decide, separate_partition _ (by decide)⟩

theorem compSets_char (refs : Adj) (s : Finset Node) :
    s ∈ compSets refs ↔
      ∃ x ∈ touched refs, ∀ n, (n ∈ s ↔ n ∈ touched refs ∧ conn refs x n) := by
  have inv := runSep_inv refs
  constructor
  · intro hs
    obtain ⟨pr, hpr, rfl⟩ := List.mem_map.mp hs
    obtain ⟨x, hxs⟩ := inv.nonemptySets pr hpr
    have hx : (runSep refs).rootmap x = some pr.1 :=
      (inv.mem_union x pr.1).mpr ⟨pr.2, by exact hpr, hxs⟩
    have hxT : x ∈ touched refs := (inv.dom x).mp (by rw [hx]; rfl)
    refine ⟨x, hxT, ?_⟩
    intro n
    constructor
    · intro hn
      have hnr : (runSep refs).rootmap n = some pr.1 :=
        (inv.mem_union n pr.1).mpr ⟨pr.2, by exact hpr, hn⟩
      have hnT : n ∈ touched refs := (inv.dom n).mp (by rw [hnr]; rfl)
      refine ⟨hnT, ?_⟩
      apply (inv.connIff x n hxT hnT).mp
      rw [hx, hnr]
    · rintro ⟨hnT, hcxn⟩
      have heq := (inv.connIff x n hxT hnT).mpr hcxn
      have hnr : (runSep refs).rootmap n = some pr.1 := by
        rw [← heq]
        exact hx
      obtain ⟨s', hs', hns'⟩ := (inv.mem_union n pr.1).mp hnr
      rwa [nodup_pair_unique inv.nodupKeys hs' (show (pr.1, pr.2) ∈ _ from hpr)] at hns'
  · rintro ⟨x, hxT, hchar⟩
    obtain ⟨r, hr⟩ := Option.isSome_iff_exists.mp ((inv.dom x).mpr hxT)
    obtain ⟨s0, hs0, hxs0⟩ := (inv.mem_union x r).mp hr
    have hse : s = s0 := by
      ext n
      rw [hchar n]
      constructor
      · rintro ⟨hnT, hcxn⟩
        have heq := (inv.connIff x n hxT hnT).mpr hcxn
        have hnr : (runSep refs).rootmap n = some r := by
          rw [← heq]
          exact hr
        obtain ⟨s', hs', hns'⟩ := (inv.mem_union n r).mp hnr
        rwa [nodup_pair_unique inv.nodupKeys hs' hs0] at hns'
      · intro hn
        have hnr := (inv.mem_union n r).mpr ⟨s0, hs0, hn⟩
        have hnT : n ∈ touched refs := (inv.dom n).mp (by rw [hnr]; rfl)
        refine ⟨hnT, (inv.connIff x n hxT hnT).mp ?_⟩
        rw [hr, hnr]
    rw [hse]
    exact List.mem_map.mpr ⟨(r, s0), hs0, rfl⟩

theorem touched_perm {refs refs' : Adj} (h : refs.Perm refs') :
    touched refs = touched refs' := by
  ext n
  rw [mem_touched, mem_touched]
  constructor
  · rintro ⟨p, hp, hn⟩
    exact ⟨p, h.mem_iff.mp hp, hn⟩
  · rintro ⟨p, hp, hn⟩
    exact ⟨p, h.mem_iff.mpr hp, hn⟩

theorem conn_perm {refs refs' : Adj} (h : refs.Perm refs') {a b : Node} :
    conn refs a b ↔ conn refs' a b := by
  constructor
  · intro hc
    refine Relation.ReflTransGen.mono ?_ hc
    rintro x y ⟨p, hp, hxy⟩
    exact ⟨p, h.mem_iff.mp hp, hxy⟩
  · intro hc
    refine Relation.ReflTransGen.mono ?_ hc
    rintro x y ⟨p, hp, hxy⟩
    exact ⟨p, h.mem_iff.mpr hp, hxy⟩

/-- C7: processing the adjacency entries in any other order yields the
same components, as sets of member sets: a member set occurs among the
output components of `refs` exactly when it occurs among those of any
permutation of `refs`. -/
theorem separate_perm_invariant (refs refs' : Adj) (hp : refs.Perm refs') :
    ∀ s, s ∈ compSets refs ↔ s ∈ compSets refs' := by
  intro s
  rw [compSets_char refs s, compSets_char refs' s, touched_perm hp]
  constructor
  · rintro ⟨x, hx, hchar⟩
    refine ⟨x, hx, fun n => ?_⟩
    rw [hchar n, conn_perm hp]
  · rintro ⟨x, hx, hchar⟩
    refine ⟨x, hx, fun n => ?_⟩
    rw [hchar n, ← conn_perm hp]

/-- Witness for `separate_perm_invariant` on a two-entry mapping and its
reversal. -/
theorem separate_perm_invariant_witness :
    (([(0, {1}), (1, {0})] : Adj).Perm [(1, {0}), (0, {1})]) ∧
    (∀ s, s ∈ compSets [(0, {1}), (1, {0})] ↔ s ∈ compSets [(1, {0}), (0, {1})]) :=
  ⟨List.Perm.swap _ _ _,
    separate_perm_invariant _ _ (List.Perm.swap _ _ _)⟩

/-- C10: `separate` is total exactly on referent-closed inputs: a closed
mapping materializes successfully, the Reference Graph Builder's
intersection with the suspect set establishes closure, and a mapping
with a referent that is not a key makes `separate` fail with the
missing-key error. -/
theorem separate_requires_closed_referents :
    (∀ refs : Adj, (∀ p ∈ refs, p.2 ⊆ keysF refs) → (separate refs).isSome) ∧
    (∀ (garbage : Finset Node) (rawRefs : Node → List Node),
      ∀ p ∈ buildRefs garbage rawRefs, p.2 ⊆ keysF (buildRefs garbage rawRefs)) ∧
    (∀ refs : Adj, (∃ p ∈ refs, ∃ v ∈ p.2, v ∉ keysF refs) → separate refs = none) := by
  refine ⟨fun refs h => separate_isSome h, ?_, ?_⟩
  · intro garbage rawRefs p hp
    obtain ⟨i, hi, rfl⟩ := List.mem_map.mp hp
    intro g hg
    have hg' : g ∈ garbage := Finset.mem_of_mem_filter g hg
    rw [mem_keysF]
    refine ⟨(g, garbage.filter (fun x => x ∈ rawRefs g)), ?_, rfl⟩
    apply List.mem_map.mpr
    exact ⟨g, mem_finsort.mpr hg', rfl⟩
  · rintro refs ⟨p, hp, v, hv, hvk⟩
    have inv := runSep_inv refs
    have hvT : v ∈ touched refs := mem_touched.mpr ⟨p, hp, Or.inr hv⟩
    obtain ⟨r, hr⟩ := Option.isSome_iff_exists.mp ((inv.dom v).mpr hvT)
    obtain ⟨s, hs, hvs⟩ := (inv.mem_union v r).mp hr
    apply mapOpt_eq_none
    refine ⟨(r, s), hs, ?_⟩
    apply mapOpt_eq_none
    refine ⟨v, mem_finsort.mpr hvs, ?_⟩
    have hlv : refs.lookup v = none := by
      cases hl : refs.lookup v with
      | none => rfl
      | some w =>
        have hsm := lookup_isSome_iff.mp (by rw [hl]; rfl)
        obtain ⟨q, hq, hq1⟩ := List.mem_map.mp hsm
        exact absurd (mem_keysF.mpr ⟨q, hq, hq1.symm⟩) hvk
    rw [hlv]
    rfl

/-- Witness for `separate_requires_closed_referents`: a closed two-node
cycle succeeds, and a dangling referent fails. -/
theorem separate_requires_closed_referents_witness :
    (separate [(0, {1}), (1, {0})]).isSome ∧ separate [(0, {1})] = none :=
  ⟨separate_requires_closed_referents.1 _ (by decide),
    separate_requires_closed_referents.2.2 _ (by decide)⟩


set_option maxRecDepth 40000 in
/-- C6 counterexample: a 27-member component's first member is named
`aa`, not the claimed single letter `a` — once the alphabet is squared,
single letters are no longer available. -/
theorem assign_names_counterexample :
    (assignNames (List.range 27)).head? = some (0, ['a', 'a']) ∧
    (claimedAssignNames (List.range 27)).head? = some (0, ['a']) ∧
    assignNames (List.range 27) ≠ claimedAssignNames (List.range 27) := by
  decide

theorem varnamesLoop_of_le (fuel n : Nat) (vs : List (List Char))
    (h : ¬ vs.length < n) : varnamesLoop fuel n vs = vs := by
  cases fuel with
  | zero => rfl
  | succ f => simp only [varnamesLoop, if_neg h]

set_option maxRecDepth 40000 in
/-- C6 (amended): display names are drawn from the current alphabet,
squared until it has at least as many names as the component has
members: for at most 26 members the names are a, b, ... in order, and
for 27 to 676 members every member receives a two-letter name aa, ab,
..., in order — single letters are not used at all. -/
theorem assign_names_spec (members : List Node) :
    (members.length ≤ 26 → assignNames members = members.zip alphabet) ∧
    (26 < members.length → members.length ≤ 676 →
      assignNames members = members.zip (squareNames alphabet)) := by
  have h26 : alphabet.length = 26 := rfl
  constructor
  · intro h
    unfold assignNames varnamesFor
    congr 1
    apply varnamesLoop_of_le
    omega
  · intro h1 h2
    unfold assignNames varnamesFor
    congr 1
    have hsq : (squareNames alphabet).length = 676 := by decide
    cases hn : members.length with
    | zero => exfalso; omega
    | succ k =>
      have hlt : alphabet.length < k + 1 := by omega
      simp only [varnamesLoop, if_pos hlt]
      apply varnamesLoop_of_le
      omega

/-- Witness for `assign_names_spec` at component sizes 5 and 30. -/
theorem assign_names_spec_witness :
    assignNames (List.range 5) = (List.range 5).zip alphabet ∧
    assignNames (List.range 30) = (List.range 30).zip (squareNames alphabet) :=
  ⟨(assign_names_spec (List.range 5)).1 (by decide),
    (assign_names_spec (List.range 30)).2 (by decide) (by decide)⟩

theorem suffix_iff_drop_eq {s tb : List Frame} :
    s <:+ tb ↔ tb.drop (tb.length - s.length) = s := by
  constructor
  · intro h
    exact (List.suffix_iff_eq_drop.mp h).symm
  · intro h
    rw [← h]
    exact List.drop_suffix _ _

theorem suffix_tail_of_lt {s l : List Frame} (h : s <:+ l) (hlt : s.length < l.length) :
    s <:+ l.tail := by
  cases l with
  | nil => simp at hlt
  | cons a t =>
    rcases List.suffix_cons_iff.mp h with rfl | h'
    · simp at hlt
    · exact h'

theorem minShortest_spec {l : List (List Frame)} (h : l ≠ []) :
    minShortest l ∈ l ∧ ∀ tb ∈ l, (minShortest l).length ≤ tb.length := by
  cases l with
  | nil => exact absurd rfl h
  | cons t rest =>
    clear h
    have hred : minShortest (t :: rest) =
        rest.foldl (fun acc tb => if tb.length < acc.length then tb else acc) t := rfl
    rw [hred]
    have key : ∀ (rest : List (List Frame)) (acc : List Frame),
        (rest.foldl (fun acc tb => if tb.length < acc.length then tb else acc) acc = acc ∨
         rest.foldl (fun acc tb => if tb.length < acc.length then tb else acc) acc ∈ rest) ∧
        (rest.foldl (fun acc tb => if tb.length < acc.length then tb else acc) acc).length ≤
          acc.length ∧
        (∀ tb ∈ rest,
          (rest.foldl (fun acc tb => if tb.length < acc.length then tb else acc) acc).length ≤
            tb.length) := by
      intro rest
      induction rest with
      | nil =>
        intro acc
        refine ⟨Or.inl rfl, le_refl _, ?_⟩
        intro tb htb
        simp at htb
      | cons b rest ih =>
        intro acc
        simp only [List.foldl_cons]
        by_cases hb : b.length < acc.length
        · rw [if_pos hb]
          obtain ⟨h1, h2, h3⟩ := ih b
          refine ⟨?_, by omega, ?_⟩
          · rcases h1 with h1 | h1
            · exact Or.inr (by rw [h1]; exact List.mem_cons_self _ _)
            · exact Or.inr (List.mem_cons_of_mem _ h1)
          · intro tb htb
            rcases List.mem_cons.mp htb with rfl | htb'
            · exact h2
            · exact h3 tb htb'
        · rw [if_neg hb]
          obtain ⟨h1, h2, h3⟩ := ih acc
          refine ⟨?_, h2, ?_⟩
          · rcases h1 with h1 | h1
            · exact Or.inl h1
            · exact Or.inr (List.mem_cons_of_mem _ h1)
          · intro tb htb
            rcases List.mem_cons.mp htb with rfl | htb'
            · omega
            · exact h3 tb htb'
    obtain ⟨h1, h2, h3⟩ := key rest t
    constructor
    · rcases h1 with h1 | h1
      · rw [h1]
        exact List.mem_cons_self _ _
      · exact List.mem_cons_of_mem _ h1
    · intro tb htb
      rcases List.mem_cons.mp htb with rfl | htb'
      · exact h2
      · exact h3 tb htb'

theorem trimCommon_spec (complete : List (List Frame)) :
    ∀ common, (∀ s, (∀ tb ∈ complete, s <:+ tb) → s <:+ common) →
      (∀ tb ∈ complete, trimCommon complete common <:+ tb) ∧
      (∀ s, (∀ tb ∈ complete, s <:+ tb) → s <:+ trimCommon complete common) := by
  intro common
  induction common with
  | nil =>
    intro hmax
    constructor
    · intro tb _
      exact List.nil_suffix
    · intro s hs
      exact hmax s hs
  | cons f rest ih =>
    intro hmax
    by_cases hc : ∃ tb ∈ complete, tb.drop (tb.length - (f :: rest).length) ≠ f :: rest
    · have hstep : trimCommon complete (f :: rest) = trimCommon complete rest := by
        simp only [trimCommon, if_pos hc]
      rw [hstep]
      apply ih
      · intro s hs
        have h1 : s <:+ f :: rest := hmax s hs
        by_cases heq : s = f :: rest
        · exfalso
          obtain ⟨tb, htb, hne⟩ := hc
          apply hne
          apply suffix_iff_drop_eq.mp
          rw [← heq]
          exact hs tb htb
        · apply suffix_tail_of_lt h1
          have hle := h1.length_le
          rcases Nat.lt_or_ge (s.length) ((f :: rest).length) with hl | hl
          · exact hl
          · exact absurd (h1.eq_of_length (le_antisymm hle hl)) heq
    · have hstep : trimCommon complete (f :: rest) = f :: rest := by
        simp only [trimCommon, if_neg hc]
      rw [hstep]
      constructor
      · intro tb htb
        push_neg at hc
        have hd := hc tb htb
        rw [← hd]
        exact List.drop_suffix _ _
      · exact hmax

theorem reconcile_spec (complete : List (List Frame)) (h : complete ≠ []) :
    (∀ tb ∈ complete, reconcile complete <:+ tb) ∧
    (∀ s, (∀ tb ∈ complete, s <:+ tb) → s <:+ reconcile complete) := by
  obtain ⟨hmem, _⟩ := minShortest_spec h
  unfold reconcile
  apply trimCommon_spec complete (minShortest complete)
  intro s hs
  exact hs _ hmem

/-- C4: when at least one complete traceback exists, the traceback
command reports the reconciled traceback, which is a trailing
(most-recent) segment of every complete traceback and the longest list
with that property; the incomplete tracebacks play no part in it. -/
theorem traceback_common_spec (file : Nat) (tbs : List (Option (List Frame)))
    (h : completeOf file tbs ≠ []) :
    tracebackReport file tbs = Report.common (reconcile (completeOf file tbs)) ∧
    (∀ tb ∈ completeOf file tbs, reconcile (completeOf file tbs) <:+ tb) ∧
    (∀ s, (∀ tb ∈ completeOf file tbs, s <:+ tb) →
      s <:+ reconcile (completeOf file tbs)) := by
  obtain ⟨h1, h2⟩ := reconcile_spec _ h
  refine ⟨?_, h1, h2⟩
  unfold tracebackReport
  rw [if_pos h]

/-- Witness for `traceback_common_spec`: the spec's example — complete
tracebacks f1,f2,f3 and f0,f2,f3 (tool frame 9 stripped) reconcile to
f2,f3. -/
theorem traceback_common_spec_witness :
    completeOf 9 [some [(1, 0), (2, 0), (3, 0), (9, 0)],
      some [(0, 0), (2, 0), (3, 0), (9, 0)]] ≠ [] ∧
    tracebackReport 9 [some [(1, 0), (2, 0), (3, 0), (9, 0)],
      some [(0, 0), (2, 0), (3, 0), (9, 0)]] =
      Report.common (reconcile (completeOf 9 [some [(1, 0), (2, 0), (3, 0), (9, 0)],
        some [(0, 0), (2, 0), (3, 0), (9, 0)]])) ∧
    reconcile (completeOf 9 [some [(1, 0), (2, 0), (3, 0), (9, 0)],
      some [(0, 0), (2, 0), (3, 0), (9, 0)]]) = [(2, 0), (3, 0)] :=
  ⟨by decide, (traceback_common_spec 9 _ (by decide)).1, by decide⟩

/-- C9: with no complete traceback, the report depends only on the
number of incomplete ones: more than one yields the cannot-establish
advice, exactly one yields that traceback in full with the truncation
marker, and none yields the none-found message.  The handler always
returns a report (no failure), and it reads only the tracebacks, never
the session state. -/
theorem traceback_no_complete_spec (file : Nat) (tbs : List (Option (List Frame)))
    (h : completeOf file tbs = []) :
    (1 < (incompleteOf file tbs).length →
      tracebackReport file tbs = Report.cannotEstablish) ∧
    (∀ tb, incompleteOf file tbs = [tb] →
      tracebackReport file tbs = Report.truncated tb) ∧
    (incompleteOf file tbs = [] → tracebackReport file tbs = Report.noneFound) := by
  have hne : ¬ (completeOf file tbs ≠ []) := fun hc => hc h
  refine ⟨?_, ?_, ?_⟩
  · intro hlen
    unfold tracebackReport
    rw [if_neg hne, if_pos hlen]
  · intro tb htb
    unfold tracebackReport
    rw [if_neg hne, if_neg (by simp [htb]), htb]
  · intro hemp
    unfold tracebackReport
    rw [if_neg hne, if_neg (by simp [hemp]), hemp]

/-- Witness for `traceback_no_complete_spec`: two incomplete tracebacks,
one, and none. -/
theorem traceback_no_complete_spec_witness :
    completeOf 9 [some [(1, 0), (2, 0)], some [(0, 0), (3, 0)]] = [] ∧
    tracebackReport 9 [some [(1, 0), (2, 0)], some [(0, 0), (3, 0)]] =
      Report.cannotEstablish ∧
    tracebackReport 9 [some [(1, 0), (2, 0)]] = Report.truncated [(1, 0), (2, 0)] ∧
    tracebackReport 9 ([] : List (Option (List Frame))) = Report.noneFound := by
  refine ⟨by decide, ?_, ?_, ?_⟩
  · exact (traceback_no_complete_spec 9 _ (by decide)).1 (by decide)
  · exact (traceback_no_complete_spec 9 _ (by decide)).2.1 [(1, 0), (2, 0)] (by decide)
  · exact (traceback_no_complete_spec 9 _ (by decide)).2.2 (by decide)


/-- C5 counterexample: two equal-size components, one of which prunes to
nothing.  The source ranks by the simplified member count and puts the
emptied component first; ranking by the pre-simplification member count,
as the claim states, would put the two-member cycle first. -/
theorem init_cycles_rank_counterexample :
    initCycles [(0, {1}), (1, {0}), (2, {3}), (3, ∅), (4, {3})]
      (fun _ => 0) (fun _ => none) =
      some [(0, []), (0, [(0, {1}), (1, {0})])] ∧
    initCyclesClaimed [(0, {1}), (1, {0}), (2, {3}), (3, ∅), (4, {3})]
      (fun _ => 0) (fun _ => none) =
      some [(0, [(0, {1}), (1, {0})]), (0, [])] ∧
    initCycles [(0, {1}), (1, {0}), (2, {3}), (3, ∅), (4, {3})]
      (fun _ => 0) (fun _ => none) ≠
      initCyclesClaimed [(0, {1}), (1, {0}), (2, {3}), (3, ∅), (4, {3})]
      (fun _ => 0) (fun _ => none) := by
  refine ⟨by decide, by decide, ?_⟩
  intro h
  have h1 : initCycles [(0, {1}), (1, {0}), (2, {3}), (3, ∅), (4, {3})]
      (fun _ => 0) (fun _ => none) =
      some [(0, []), (0, [(0, {1}), (1, {0})])] := by decide
  have h2 : initCyclesClaimed [(0, {1}), (1, {0}), (2, {3}), (3, ∅), (4, {3})]
      (fun _ => 0) (fun _ => none) =
      some [(0, [(0, {1}), (1, {0})]), (0, [])] := by decide
  rw [h1, h2] at h
  simp at h

theorem sorted_head_min {l : List (Nat × Adj)} (hs : List.Sorted rankLe l) :
    ∀ x, l.head? = some x → ∀ q ∈ l, rankLe x q := by
  cases l with
  | nil =>
    intro x hx
    cases hx
  | cons a t =>
    intro x hx q hq
    injection hx with hx
    subst hx
    rcases List.mem_cons.mp hq with rfl | hq'
    · exact Or.inr ⟨rfl, le_refl _⟩
    · exact List.rel_of_sorted_cons hs q hq'

/-- C5 (amended): the session pairs each component's aggregate size —
computed before simplification and never recomputed — with its
simplified form, and ranks these pairs ascending by (size, member count
of the simplified component); the initial selection is index 0, the
smallest pair under that order. -/
theorem init_cycles_spec (refs : Adj) (sizeOf : Node → Nat)
    (dictOf : Node → Option Node) (hclosed : ∀ p ∈ refs, p.2 ⊆ keysF refs) :
    ∃ comps, separate refs = some comps ∧
      ∀ ranked, initCycles refs sizeOf dictOf = some ranked →
        (List.Sorted rankLe ranked ∧
         ranked.Perm (comps.map (fun c =>
           (componentSize sizeOf c, simplifyCycle dictOf c))) ∧
         initialSelection = 0 ∧
         ∀ x, ranked.head? = some x → ∀ q ∈ ranked, rankLe x q) := by
  obtain ⟨comps, hsep⟩ := Option.isSome_iff_exists.mp (separate_isSome hclosed)
  refine ⟨comps, hsep, ?_⟩
  intro ranked hr
  unfold initCycles at hr
  rw [hsep] at hr
  have hr2 : (comps.map (fun c =>
      (componentSize sizeOf c, simplifyCycle dictOf c))).insertionSort rankLe = ranked := by
    exact Option.some.inj hr
  subst hr2
  have hs := List.sorted_insertionSort rankLe
    (comps.map (fun c => (componentSize sizeOf c, simplifyCycle dictOf c)))
  exact ⟨hs, List.perm_insertionSort rankLe _, rfl, sorted_head_min hs⟩

/-- Witness for `init_cycles_spec` on a closed two-node cycle. -/
theorem init_cycles_spec_witness :
    (∀ p ∈ ([(0, {1}), (1, {0})] : Adj), p.2 ⊆ keysF [(0, {1}), (1, {0})]) ∧
    (∃ comps, separate [(0, {1}), (1, {0})] = some comps ∧
      ∀ ranked, initCycles [(0, {1}), (1, {0})] (fun _ => 1) (fun _ => none) =
          some ranked →
        (List.Sorted rankLe ranked ∧
         ranked.Perm (comps.map (fun c =>
           (componentSize (fun _ => 1) c, simplifyCycle (fun _ => none) c))) ∧
         initialSelection = 0 ∧
         ∀ x, ranked.head? = some x → ∀ q ∈ ranked, rankLe x q)) :=
  ⟨by decide, init_cycles_spec _ _ _ (by decide)⟩


/-- C8 counterexample: on the mapping `\x7b5: 9, 7: 5\x7d` with referent `5`,
the source returns the mapping-key phrase for the first entry, while the
claimed probe order (all value checks before any key check) would return
the mapping-value phrase for the second entry. -/
theorem fmtref_priority_counterexample :
    fmtref ⟨some [(5, 9), (7, 5)], none, none, []⟩ 5 = some Phrase.mapKey ∧
    claimedFmtref ⟨some [(5, 9), (7, 5)], none, none, []⟩ 5 = some (Phrase.mapVal 7) ∧
    Phrase.mapKey ≠ Phrase.mapVal 7 := by
  decide

/-- C8 (amended): the describer scans mapping entries in order, checking
value before key within each entry; then tries the sequence, set and
attribute probes in that order, returning the first match.  A
single-entry mapping to the referent yields its key's value phrase, the
sequence `[x, target]` yields index 1, a referent matched by no probe
yields the generic arrow, and a failure raised while probing attributes
is swallowed and also yields the generic arrow. -/
theorem fmtref_spec :
    (∀ k r : Nat, fmtref ⟨some [(k, r)], none, none, []⟩ r = some (Phrase.mapVal k)) ∧
    (∀ x r : Nat, x ≠ r → fmtref ⟨none, some [x, r], none, []⟩ r = some (Phrase.seqIdx 1)) ∧
    (∀ (obj : PyObj) (r : Nat), fmtref obj r = none → describeRef obj r = Phrase.arrow) ∧
    (∀ (pre post : List (Nat × Option Nat)) (a r : Nat),
      (∀ q ∈ pre, q.2 ≠ some r) →
      describeRef ⟨none, none, none, pre ++ (a, none) :: post⟩ r = Phrase.arrow) ∧
    (∀ (mp : List (Nat × Nat)) (sq se : Option (List Nat))
      (ats : List (Nat × Option Nat)) (r : Nat) (p : Phrase),
      scanMap mp r = some p → fmtref ⟨some mp, sq, se, ats⟩ r = some p) ∧
    (∀ (obj : PyObj) (r : Nat) (p : Phrase),
      obj.mapping.bind (fun items => scanMap items r) = none →
      obj.sequence.bind (fun l => scanSeq l 0 r) = some p →
      fmtref obj r = some p) ∧
    (∀ (obj : PyObj) (r : Nat) (p : Phrase),
      obj.mapping.bind (fun items => scanMap items r) = none →
      obj.sequence.bind (fun l => scanSeq l 0 r) = none →
      obj.setElems.bind (fun l => if r ∈ l then some Phrase.setMem else none) = some p →
      fmtref obj r = some p) ∧
    (∀ (obj : PyObj) (r : Nat),
      obj.mapping.bind (fun items => scanMap items r) = none →
      obj.sequence.bind (fun l => scanSeq l 0 r) = none →
      obj.setElems.bind (fun l => if r ∈ l then some Phrase.setMem else none) = none →
      fmtref obj r = scanAttrs obj.attrs r) := by
  refine ⟨?_, ?_, ?_, ?_, ?_, ?_, ?_, ?_⟩
  · intro k r
    simp [fmtref, scanMap]
  · intro x r hx
    simp [fmtref, scanSeq, hx]
  · intro obj r h
    unfold describeRef
    rw [h]
    rfl
  · intro pre post a r hpre
    have haux : ∀ (pre : List (Nat × Option Nat)), (∀ q ∈ pre, q.2 ≠ some r) →
        scanAttrs (pre ++ (a, none) :: post) r = none := by
      intro pre hpre
      induction pre with
      | nil => rfl
      | cons q pre ih =>
        obtain ⟨b, w⟩ := q
        cases w with
        | none => rfl
        | some v =>
          have hv : v ≠ r := by
            intro h
            exact hpre (b, some v) (List.mem_cons_self _ _) (by rw [h])
          simp only [List.cons_append, scanAttrs, if_neg hv]
          exact ih fun q hq => hpre q (List.mem_cons_of_mem _ hq)
    unfold describeRef
    have h : fmtref ⟨none, none, none, pre ++ (a, none) :: post⟩ r = none := by
      simp only [fmtref, Option.none_bind]
      exact haux pre hpre
    rw [h]
    rfl
  · intro mp sq se ats r p h
    simp [fmtref, h]
  · intro obj r p h1 h2
    simp [fmtref, h1, h2]
  · intro obj r p h1 h2 h3
    simp [fmtref, h1, h2, h3]
  · intro obj r h1 h2 h3
    simp [fmtref, h1, h2, h3]

/-- Witness for `fmtref_spec`: a mapping hit, the sequence example, and
a swallowed attribute failure. -/
theorem fmtref_spec_witness :
    fmtref ⟨some [(3, 7)], none, none, []⟩ 7 = some (Phrase.mapVal 3) ∧
    fmtref ⟨none, some [3, 7], none, []⟩ 7 = some (Phrase.seqIdx 1) ∧
    describeRef ⟨none, none, none, [(4, some 1), (5, none), (6, some 7)]⟩ 7 =
      Phrase.arrow :=
  ⟨fmtref_spec.1 3 7, fmtref_spec.2.1 3 7 (by decide),
    fmtref_spec.2.2.2.1 [(4, some 1)] [(6, some 7)] 5 7 (by decide)⟩

/-- C2: one member's turn of the container collapse.  When `A` has the
backing store `S`, currently references it, and no other member does,
`A`'s edges become `S`'s edges united with `A`'s minus the edge to `S`,
`S`'s edges are cleared, and no other member's edges change; when some
other member also references `S`, or `A` itself does not, the edge sets
are left unchanged. -/
theorem collapse_step_spec (members : List Node) (dictOf : Node → Option Node)
    (m : Node → Finset Node) (A S : Node) (hd : dictOf A = some S) (hAS : A ≠ S) :
    ((S ∈ m A ∧ ∀ B ∈ members, B ≠ A → S ∉ m B) →
      (collapseStep members dictOf m A A = m S ∪ (m A \ {S}) ∧
       collapseStep members dictOf m A S = ∅ ∧
       ∀ n, n ≠ A → n ≠ S → collapseStep members dictOf m A n = m n)) ∧
    ((∃ B ∈ members, B ≠ A ∧ S ∈ m B) → collapseStep members dictOf m A = m) ∧
    (S ∉ m A → collapseStep members dictOf m A = m) := by
  have hstep : collapseStep members dictOf m A =
      (if S ∈ m A ∧ ∀ B ∈ members, B ≠ A → S ∉ m B then
        fun n => if n = S then ∅ else if n = A then m S ∪ (m A \ {S}) else m n
      else m) := by
    unfold collapseStep
    rw [hd]
  rw [hstep]
  refine ⟨?_, ?_, ?_⟩
  · intro hcond
    rw [if_pos hcond]
    refine ⟨?_, ?_, ?_⟩
    · show (if A = S then (∅ : Finset Node)
        else if A = A then m S ∪ (m A \ {S}) else m A) = m S ∪ (m A \ {S})
      rw [if_neg hAS, if_pos rfl]
    · show (if S = S then (∅ : Finset Node)
        else if S = A then m S ∪ (m A \ {S}) else m S) = ∅
      rw [if_pos rfl]
    · intro n hnA hnS
      show (if n = S then (∅ : Finset Node)
        else if n = A then m S ∪ (m A \ {S}) else m n) = m n
      rw [if_neg hnS, if_neg hnA]
  · rintro ⟨B, hB, hBA, hSB⟩
    rw [if_neg]
    rintro ⟨_, hall⟩
    exact hall B hB hBA hSB
  · intro hS
    rw [if_neg]
    rintro ⟨h1, _⟩
    exact hS h1

/-- Witness for `collapse_step_spec` on the three-member component
0 → \x7b1,2\x7d, 1 → \x7b2\x7d, 2 → \x7b0\x7d, where 1 is member 0's backing store. -/
theorem collapse_step_spec_witness :
    collapseStep [0, 1, 2] (fun n => if n = 0 then some 1 else none)
      (fun n => if n = 0 then {1, 2} else if n = 1 then {2} else {0}) 0 0 =
      (fun n : Node => if n = 0 then ({1, 2} : Finset Node)
        else if n = 1 then {2} else {0}) 1 ∪
      ((fun n : Node => if n = 0 then ({1, 2} : Finset Node)
        else if n = 1 then {2} else {0}) 0 \ {1}) ∧
    collapseStep [0, 1, 2] (fun n => if n = 0 then some 1 else none)
      (fun n => if n = 0 then {1, 2} else if n = 1 then {2} else {0}) 0 1 = ∅ := by
  have h := (collapse_step_spec [0, 1, 2] (fun n => if n = 0 then some 1 else none)
    (fun n => if n = 0 then {1, 2} else if n = 1 then {2} else {0}) 0 1
    rfl (by decide)).1 (by decide)
  exact ⟨h.1, h.2.1⟩

theorem removeSet_mem {c : Adj} {k : Node} :
    k ∈ removeSet c ↔ ∃ p ∈ c, p.1 = k ∧ p.2 = ∅ := by
  unfold removeSet
  rw [List.mem_toFinset, List.mem_filterMap]
  constructor
  · rintro ⟨p, hp, hpk⟩
    by_cases h : p.2 = ∅
    · rw [if_pos h] at hpk
      exact ⟨p, hp, Option.some.inj hpk, h⟩
    · rw [if_neg h] at hpk
      cases hpk
  · rintro ⟨p, hp, h1, h2⟩
    exact ⟨p, hp, by rw [if_pos h2, h1]⟩

theorem pruneRound_length_lt {c : Adj} (h : removeSet c ≠ ∅) :
    (pruneRound c (removeSet c)).length < c.length := by
  unfold pruneRound
  rw [List.length_map]
  obtain ⟨k, hk⟩ := Finset.nonempty_iff_ne_empty.mpr h
  obtain ⟨p, hp, hpk, _⟩ := removeSet_mem.mp hk
  apply List.length_filter_lt_length_iff_exists.mpr
  exact ⟨p, hp, by simp [hpk, hk]⟩

theorem pruneFuel_removeSet : ∀ (fuel : Nat) (c : Adj), c.length < fuel →
    removeSet (pruneFuel fuel c) = ∅ := by
  intro fuel
  induction fuel with
  | zero =>
    intro c h
    exact absurd h (Nat.not_lt_zero _)
  | succ fuel ih =>
    intro c h
    by_cases hr : removeSet c = ∅
    · simp only [pruneFuel, if_pos hr]
      exact hr
    · have hlt := pruneRound_length_lt hr
      simp only [pruneFuel, if_neg hr]
      exact ih _ (by omega)

theorem pruneFuel_of_empty {c : Adj} (h : removeSet c = ∅) :
    ∀ fuel, pruneFuel fuel c = c := by
  intro fuel
  cases fuel with
  | zero => rfl
  | succ fuel => simp only [pruneFuel, if_pos h]

/-- C3: a pruning round removes exactly the members with empty edge sets
and deletes them from the surviving members' edge sets; the loop stops at
a genuine fixed point (no empty member remains, and another round
changes nothing), and pruning its own output changes nothing. -/
theorem prune_spec (c : Adj) (hnd : (c.map Prod.fst).Nodup) :
    (pruneRound c (removeSet c) =
      (c.filter (fun p => decide (¬ p.2 = ∅))).map (fun p => (p.1, p.2 \ removeSet c))) ∧
    removeSet (prune c) = ∅ ∧
    pruneRound (prune c) (removeSet (prune c)) = prune c ∧
    prune (prune c) = prune c := by
  have h0 : removeSet (prune c) = ∅ :=
    pruneFuel_removeSet _ _ (Nat.lt_succ_self _)
  refine ⟨?_, h0, ?_, ?_⟩
  · unfold pruneRound
    congr 1
    apply List.filter_congr
    intro p hp
    apply decide_eq_decide.mpr
    constructor
    · intro hni he
      exact hni (removeSet_mem.mpr ⟨p, hp, rfl, he⟩)
    · intro hne hin
      obtain ⟨q, hq, hq1, hq2⟩ := removeSet_mem.mp hin
      have hq' : (p.1, q.2) ∈ c := by
        rw [← hq1]
        exact hq
      have h2 : q.2 = p.2 := nodup_pair_unique hnd hq' hp
      rw [h2] at hq2
      exact hne hq2
  · have h1 : (prune c).filter (fun p => decide (p.1 ∉ (∅ : Finset Node))) = prune c := by
      apply List.filter_eq_self.mpr
      intro p _
      simp
    have h2 : (prune c).map (fun p => (p.1, p.2 \ (∅ : Finset Node))) = prune c := by
      have he : ∀ p : Node × Finset Node, (p.1, p.2 \ (∅ : Finset Node)) = p := by
        intro p
        rw [Finset.sdiff_empty]
      rw [List.map_congr_left fun p _ => he p]
      simp
    rw [h0]
    unfold pruneRound
    rw [h1, h2]
  · have hidem : prune (prune c) = prune c := by
      unfold prune
      exact pruneFuel_of_empty h0 _
    exact hidem

/-- Witness for `prune_spec` on a two-node cycle with a dead tail node. -/
theorem prune_spec_witness :
    (([(0, {1}), (1, {0}), (2, ∅)] : Adj).map Prod.fst).Nodup ∧
    removeSet (prune [(0, {1}), (1, {0}), (2, ∅)]) = ∅ ∧
    prune (prune [(0, {1}), (1, {0}), (2, ∅)]) = prune [(0, {1}), (1, {0}), (2, ∅)] :=
  ⟨by decide, (prune_spec _ (by decide)).2.1, (prune_spec _ (by decide)).2.2.2⟩

end Scavenge
